import Mathlib

/-!
# Verification of the PuppetDB dynamic inventory script

Shallow embedding of `contrib/inventory/puppetdb.py` (a Python 2 script that
turns PuppetDB node/resource/fact query results into an Ansible inventory
JSON document), together with proofs of the specification claims about it.

Python strings are modelled as lists of code points (`List Nat`).  Python
dicts are modelled as association lists with unique keys, where insertion
(`dictSet`) overwrites in place or appends, matching dict semantics.
Python exceptions are modelled with `Except PyErr`.
-/

namespace Pdb

/-- A Python string, as its list of code points. -/
abbrev PyStr := List Nat

/-- Turn a Lean string literal into the code-point model of a Python string. -/
def pystr (s : String) : PyStr := s.toList.map Char.toNat

/-- One character of Python 2 `str.lower()`: ASCII uppercase letters are
shifted to lowercase, everything else is unchanged. -/
def pyLowerChar (c : Nat) : Nat := if 65 ≤ c ∧ c ≤ 90 then c + 32 else c

/-- Python 2 `str.lower()` over the code-point model (ASCII case table). -/
def pyLower (s : PyStr) : PyStr := s.map pyLowerChar

/-- `re.sub('::', '_', s)`: the pattern is a literal, so this is the
leftmost, non-overlapping replacement of every `::` (code point 58 twice)
by `_` (code point 95). -/
def replaceColons : PyStr → PyStr
  | [] => []
  | [c] => [c]
  | c :: d :: rest =>
    if c = 58 ∧ d = 58 then 95 :: replaceColons rest
    else c :: replaceColons (d :: rest)

/-- `true` iff the string has no two adjacent colons, i.e.
`re.sub('::', '_', ·)` has nothing to replace in it. -/
def noColonPair : PyStr → Bool
  | [] => true
  | [_] => true
  | c :: d :: rest => !(c == 58 && d == 58) && noColonPair (d :: rest)

/-- The group-name transform of `main` (lines 182-183 of the source):
`group = re.sub(cfg['query']['title_strip'], '', resource.name).lower()`
then `group = re.sub('::', '_', group)`.
The configured strip pattern is an arbitrary regular expression, so the
substitution `s ↦ re.sub(title_strip, '', s)` is abstracted as the
function argument `strip`. -/
def groupName (strip : PyStr → PyStr) (name : PyStr) : PyStr :=
  replaceColons (pyLower (strip name))

/-- The group-name derivation in the words of the spec: remove the strip
pattern's matches, replace literal `::` by `_`, then lowercase. -/
def groupNameSpec (strip : PyStr → PyStr) (name : PyStr) : PyStr :=
  pyLower (replaceColons (strip name))

/-- `s ↦ re.sub('^motd_', '', s)`: the pattern is anchored at the start of
the string, so it removes one leading occurrence of `motd_` if present. -/
def stripMotd (s : PyStr) : PyStr :=
  if s.take 5 = pystr "motd_" then s.drop 5 else s

/-- A Python value, as far as the script needs them.  `pfloat` carries the
decimal text that `json.dumps` writes for the float — `repr(x)`, the
shortest string that round-trips (`float(repr(x)) == x`), which names
each double uniquely, so a float is identified with its serialized text;
no claim depends on float arithmetic.  Dicts are association lists whose
keys are unique; `dictSet` keeps that shape. -/
inductive PyVal where
  | pstr (s : PyStr)
  | pint (n : Int)
  | pfloat (txt : PyStr)
  | pbool (b : Bool)
  | pnone
  | plist (xs : List PyVal)
  | pdict (kvs : List (PyStr × PyVal))

/-- A Python dict of string keys. -/
abbrev Dict := List (PyStr × PyVal)

/-- The exceptions the modelled code can raise. -/
inductive PyErr where
  /-- `d[k]` with `k` missing. -/
  | keyError (key : PyStr)
  /-- The `ValueError` of `hostvars_from_facts`, carrying the offending
  fact's name. -/
  | valueError (factName : PyStr)
  /-- Subscripting a non-dict value. -/
  | typeError
  /-- Calling `.append` on a non-list value. -/
  | attributeError
  deriving DecidableEq, Repr

/-- Dict lookup, `d.get(k)` / `d[k]` (which entry: keys are unique, so the
first match is the only one). -/
def dictGet : Dict → PyStr → Option PyVal
  | [], _ => none
  | (k, v) :: rest, key => if k = key then some v else dictGet rest key

/-- Dict update `d[k] = v`: overwrite the existing entry in place, or
append a new entry (matching dict insertion-order semantics). -/
def dictSet : Dict → PyStr → PyVal → Dict
  | [], key, v => [(key, v)]
  | (k, w) :: rest, key, v =>
    if k = key then (k, v) :: rest else (k, w) :: dictSet rest key v

/-- `d.pop(k, default)`'s effect on the dict: drop the entry with key `k`
(unique if present). -/
def dictRemove : Dict → PyStr → Dict
  | [], _ => []
  | (k, v) :: rest, key => if k = key then rest else (k, v) :: dictRemove rest key

/-- A fact record as returned by `pdb.facts(...)`: the script reads
`fact.name` and `fact.value`. -/
structure PyFact where
  name : PyStr
  value : PyVal

/-- A resource record as returned by `pdb.resources(...)`: the script reads
`resource.node` (the owning node's certname) and `resource.name` (title). -/
structure PyResource where
  node : PyStr
  name : PyStr
  deriving DecidableEq

/-- `type(v) in FACT_VALUE_TYPES` with
`FACT_VALUE_TYPES = [str, unicode, int, float, bool]` (the script is
Python 2; `pstr` stands for both of its string types). -/
def isFactValueType : PyVal → Bool
  | .pstr _ => true
  | .pint _ => true
  | .pfloat _ => true
  | .pbool _ => true
  | _ => false

/-- One iteration of `hostvars_from_facts`: check the fact's value type,
then store it. -/
def hostvarsStep (host_vars : Dict) (fact : PyFact) : Except PyErr Dict :=
  if isFactValueType fact.value then
    .ok (dictSet host_vars fact.name fact.value)
  else
    .error (.valueError fact.name)

/-- `hostvars_from_facts` (source lines 137-144): build the hostvars dict
from fact records, raising `ValueError` at the first fact whose value is
not of a primitive type. -/
def hostvars_from_facts (facts : List PyFact) : Except PyErr Dict :=
  facts.foldlM hostvarsStep []

/-- Key `"_meta"` of the output document. -/
def metaKey : PyStr := pystr "_meta"

/-- Key `"hostvars"`. -/
def hostvarsKey : PyStr := pystr "hostvars"

/-- Key `"hosts"`. -/
def hostsKey : PyStr := pystr "hosts"

/-- Key `"vars"`. -/
def varsKey : PyStr := pystr "vars"

/-- The body of the resource loop of `main` (source lines 177-191) for one
resource record:

```
if resource.node not in nodes: continue
group = re.sub(cfg['query']['title_strip'], '', resource.name).lower()
group = re.sub('::', '_', group)
if output.get(group) is None:
    output[group] = {'hosts': [resource.node], 'vars': dict()}
else:
    output[group]['hosts'].append(resource.node)
```

`output.get(group) is None` also holds when an entry's *value* is `None`,
so that case takes the creation branch too.  In the other branch,
`output[group]['hosts']` raises `KeyError` when the stored dict has no
`'hosts'` entry (this happens when the group name collides with the
`'_meta'` metadata entry), and `.append` on a non-list raises
`AttributeError`. -/
def addResource (strip : PyStr → PyStr) (nodes : List PyStr)
    (output : Dict) (resource : PyResource) : Except PyErr Dict :=
  if resource.node ∈ nodes then
    let group := groupName strip resource.name
    match dictGet output group with
    | none =>
      .ok (dictSet output group
        (.pdict [(hostsKey, .plist [.pstr resource.node]), (varsKey, .pdict [])]))
    | some .pnone =>
      .ok (dictSet output group
        (.pdict [(hostsKey, .plist [.pstr resource.node]), (varsKey, .pdict [])]))
    | some (.pdict gkvs) =>
      match dictGet gkvs hostsKey with
      | some (.plist hs) =>
        .ok (dictSet output group
          (.pdict (dictSet gkvs hostsKey (.plist (hs ++ [.pstr resource.node])))))
      | some _ => .error .attributeError
      | none => .error (.keyError hostsKey)
    | some _ => .error .typeError
  else
    .ok output

/-- The node phase of `main` (source lines 165-174): walk the node-query
results in order; for each node, when `cfg['query']['facts_as_hostvars']`
is truthy (a non-empty list), run the per-node facts query and store
`hostvars_from_facts` of its results under the node's name in
`output['_meta']['hostvars']`. -/
def nodeHostvars (facts_as_hostvars : List PyStr) (factsFor : PyStr → List PyFact)
    (nodeNames : List PyStr) : Except PyErr Dict :=
  nodeNames.foldlM
    (fun hv n =>
      if facts_as_hostvars ≠ [] then do
        let fv ← hostvars_from_facts (factsFor n)
        pure (dictSet hv n (.pdict fv))
      else
        pure hv)
    ([] : Dict)

/-- `output = {'_meta': {'hostvars': ...}}` (source line 162), with the
hostvars dict as filled in by the node phase. -/
def initOutput (hostvars : Dict) : Dict :=
  [(metaKey, .pdict [(hostvarsKey, .pdict hostvars)])]

/-- The inventory-building part of `main` (source lines 162-191), with the
PuppetDB client abstracted: `nodeNames` are the `node.name` values returned
by the node query (in iteration order), `factsFor n` are the fact records
the per-node facts query returns for node `n`, and `resources` are the
resource-query results.  `facts_as_hostvars` is `cfg['query']['facts_as_hostvars']`;
the source guards the facts queries with its truthiness (a non-empty list).
`strip` abstracts `s ↦ re.sub(cfg['query']['title_strip'], '', s)`. -/
def buildInventory (strip : PyStr → PyStr) (facts_as_hostvars : List PyStr)
    (factsFor : PyStr → List PyFact) (nodeNames : List PyStr)
    (resources : List PyResource) : Except PyErr PyVal := do
  let hostvars ← nodeHostvars facts_as_hostvars factsFor nodeNames
  let output ← resources.foldlM (addResource strip nodeNames) (initOutput hostvars)
  pure (.pdict output)

/-- The dict value a group holds: `{'hosts': [...], 'vars': {}}`. -/
def groupVal (hosts : List PyVal) : PyVal :=
  .pdict [(hostsKey, .plist hosts), (varsKey, .pdict [])]

/-- The hosts a group named `g` collects from the resource list: one entry
per resource whose owning node was discovered and whose title normalizes
to `g`, in resource-iteration order. -/
def selHosts (strip : PyStr → PyStr) (nodes : List PyStr) (g : PyStr)
    (resources : List PyResource) : List PyVal :=
  (resources.filter
    (fun r => decide (r.node ∈ nodes) && (groupName strip r.name == g))).map
    (fun r => .pstr r.node)

/-- A filter node of the PuppetDB query AST
(`pypuppetdb.QueryBuilder` operators). -/
inductive QueryOp where
  | equalsOp (field : PyStr) (value : PyVal)
  | regexOp (field : PyStr) (pattern : PyStr)
  | inOp (field : PyStr) (values : List PyVal)
  | nullOp (field : PyStr) (checkNull : Bool)
  | andOp (ops : List QueryOp)

/-- `DEFAULT_LAST_REPORT = 2`. -/
def DEFAULT_LAST_REPORT : Int := 2

/-- `NODE_ENVS = ['catalog_environment', 'facts_environment', 'report_environment']`. -/
def NODE_ENVS : List PyStr :=
  [pystr "catalog_environment", pystr "facts_environment", pystr "report_environment"]

/-- The fields of `cfg['query']` read by `node_query_args`.  `last_report`
is `int|null` in the config schema, hence `Option Int`. -/
structure NodeQueryCfg where
  environment : PyStr
  last_report : Option Int
  deactivated : Bool
  expired : Bool

/-- The keyword arguments `node_query_args` builds for `pdb.nodes`. -/
structure NodeQueryArgs where
  with_status : Bool
  unreported : Int
  query : QueryOp

/-- Python truthiness of the `int|null` field `cfg['last_report']`:
`None` and `0` are falsy, every other int is truthy. -/
def lastReportTruthy : Option Int → Bool
  | none => false
  | some n => n != 0

/-- `node_query_args` (source lines 104-118).  The `unreported` entry is
`cfg['last_report'] if cfg['last_report'] else DEFAULT_LAST_REPORT`, i.e.
it uses the configured value exactly when that value is *truthy*. -/
def node_query_args (cfg : NodeQueryCfg) : NodeQueryArgs :=
  { with_status := true
    unreported :=
      if lastReportTruthy cfg.last_report then cfg.last_report.getD DEFAULT_LAST_REPORT
      else DEFAULT_LAST_REPORT
    query := .andOp
      ((NODE_ENVS.map (fun env => .equalsOp env (.pstr cfg.environment))) ++
        [.nullOp (pystr "deactivated") (!cfg.deactivated),
         .nullOp (pystr "expired") (!cfg.expired)]) }

/-- `CONFIG_FILES = [os.environ['HOME'] + '/.puppetdb.yml', '/etc/ansible/puppetdb.yml']`;
the home directory is a parameter. -/
def config_files (home : PyStr) : List PyStr :=
  [home ++ pystr "/.puppetdb.yml", pystr "/etc/ansible/puppetdb.yml"]

/-- The search loop of `parse_config` over a candidate list: return
`from_yaml f` for the first `f` that is a readable regular file
(`os.path.isfile(f) and os.access(f, os.R_OK)`, abstracted as the
predicate `readable`), leaving the initial `cfg = dict()` when none is. -/
def firstConfig (readable : PyStr → Bool) (from_yaml : PyStr → PyVal) :
    List PyStr → PyVal
  | [] => .pdict []
  | f :: rest =>
    if readable f then from_yaml f else firstConfig readable from_yaml rest

/-- `parse_config` (source lines 56-63), with the filesystem abstracted:
`readable` tells which paths are readable regular files and `from_yaml`
gives the parsed YAML contents of a path. -/
def parse_config (readable : PyStr → Bool) (from_yaml : PyStr → PyVal)
    (home : PyStr) : PyVal :=
  firstConfig readable from_yaml (config_files home)

/-- The `ca_cert` handling of `db_connect` (source lines 81-88):
`ca_cert = cfg.pop('ca_cert', None)` removes the key from the connection
dict that `main` passed in (`cfg['puppetdb']`) and hands back the popped
value (`None` when absent). -/
def db_connect_pop (cfg : Dict) : Dict × PyVal :=
  (dictRemove cfg (pystr "ca_cert"), (dictGet cfg (pystr "ca_cert")).getD .pnone)

/-- `pdb = db_connect(cfg['puppetdb'])` as it acts on the config state:
`cfg['puppetdb']` raises `KeyError` when the section is missing and
`TypeError` when subscripting would fail; otherwise the `pop` inside
`db_connect` mutates the section in place. -/
def connectStep (cfg1 : Dict) : Except PyErr Dict :=
  match dictGet cfg1 (pystr "puppetdb") with
  | some (.pdict p) =>
    .ok (dictSet cfg1 (pystr "puppetdb") (.pdict (db_connect_pop p).fst))
  | some _ => .error .typeError
  | none => .error (.keyError (pystr "puppetdb"))

/-- The configuration state after `main` has run its two config-touching
steps on the loaded top-level config dict: the `--environment` override
(`cfg['query']['environment'] = args.environment`, only when the flag is
given; `KeyError`/`TypeError` when `cfg['query']` is missing or not a
dict), and then the `db_connect(cfg['puppetdb'])` call (`connectStep`). -/
def configAfterRun (cfg : Dict) (envFlag : Option PyStr) : Except PyErr Dict :=
  match envFlag with
  | some e =>
    match dictGet cfg (pystr "query") with
    | some (.pdict q) =>
      connectStep (dictSet cfg (pystr "query")
        (.pdict (dictSet q (pystr "environment") (.pstr e))))
    | some _ => .error .typeError
    | none => .error (.keyError (pystr "query"))
  | none => connectStep cfg

/-- The hosts list stored in a well-formed group entry, if any. -/
def hostsOf : Option PyVal → Option (List PyVal)
  | some (.pdict gkvs) =>
    match dictGet gkvs hostsKey with
    | some (.plist hs) => some hs
    | _ => none
  | _ => none

/-- How the hosts of one group evolve over a run of the resource loop:
appended to if the group exists, created if new hosts arrive. -/
def extendHosts : Option (List PyVal) → List PyVal → Option (List PyVal)
  | some hs, new => some (hs ++ new)
  | none, [] => none
  | none, new => some new

/-- The output dict shape the resource loop maintains: the `_meta` entry
holds the fixed metadata dict `metaV` (which has no `'hosts'` key), and
every other entry is a group dict `{'hosts': [...], 'vars': {}}`. -/
def GoodOut (metaV : Dict) (out : Dict) : Prop :=
  dictGet out metaKey = some (.pdict metaV) ∧
  dictGet metaV hostsKey = none ∧
  ∀ g, g ≠ metaKey → dictGet out g = (hostsOf (dictGet out g)).map groupVal

/-- Lexicographic code-point comparison: Python `<` on strings. -/
def strLt : PyStr → PyStr → Bool
  | [], [] => false
  | [], _ :: _ => true
  | _ :: _, [] => false
  | a :: as1, b :: bs1 => a < b || (a == b && strLt as1 bs1)

/-- The comparator `sorted()` effectively applies to dict items (keys are
unique, so the tuple comparison never reaches the values). -/
def keyLe (a b : PyStr × PyVal) : Prop := strLt b.1 a.1 = false

instance : DecidableRel keyLe := fun _ _ => decEq _ _

/-- `sorted(d.items())`: insertion sort of the entries by key. -/
def sortKV (kvs : Dict) : Dict := List.insertionSort keyLe kvs

mutual

/-- Recursively sort every dict's entries by key.  `json.dumps` with
`sort_keys=True` emits objects in sorted key order at every level;
canonicalizing first and then emitting in stored order produces the same
text. -/
def canon : PyVal → PyVal
  | .pdict kvs => .pdict (sortKV (canonKVs kvs))
  | .plist xs => .plist (canonList xs)
  | .pstr s => .pstr s
  | .pint n => .pint n
  | .pfloat t => .pfloat t
  | .pbool b => .pbool b
  | .pnone => .pnone

def canonList : List PyVal → List PyVal
  | [] => []
  | v :: rest => canon v :: canonList rest

def canonKVs : List (PyStr × PyVal) → List (PyStr × PyVal)
  | [] => []
  | (k, w) :: kvs => (k, canon w) :: canonKVs kvs

end

/-- `ind` spaces. -/
def spaces (ind : Nat) : PyStr := List.replicate ind 32

/-- One lowercase hex digit, `'%x'`-style. -/
def hexDig (n : Nat) : Nat := if n < 10 then 48 + n else 87 + n

/-- `'%04x'` of a value below `0x10000`. -/
def hex4 (n : Nat) : PyStr :=
  [hexDig (n / 4096 % 16), hexDig (n / 256 % 16), hexDig (n / 16 % 16), hexDig (n % 16)]

/-- How `json.dumps` (default `ensure_ascii=True`) writes one character of
a string: `"` and `\` are backslash-escaped, the control characters with
short forms use them (`\b \t \n \f \r`), every other printable ASCII
character stands for itself, and everything else becomes `\uXXXX`
(a surrogate pair for code points above `0xFFFF`). -/
def escapeChar (c : Nat) : PyStr :=
  if c = 34 then [92, 34]
  else if c = 92 then [92, 92]
  else if c = 8 then [92, 98]
  else if c = 9 then [92, 116]
  else if c = 10 then [92, 110]
  else if c = 12 then [92, 102]
  else if c = 13 then [92, 114]
  else if 32 ≤ c ∧ c ≤ 126 then [c]
  else if c < 65536 then 92 :: 117 :: hex4 c
  else 92 :: 117 :: hex4 (55296 + (c - 65536) / 1024) ++
    92 :: 117 :: hex4 (56320 + (c - 65536) % 1024)

/-- Escape every character. -/
def escapeChars : PyStr → PyStr
  | [] => []
  | c :: rest => escapeChar c ++ escapeChars rest

/-- A serialized JSON string: `"` + escaped body + `"`. -/
def quoteJson (s : PyStr) : PyStr := 34 :: escapeChars s ++ [34]

/-- Decimal digits of a natural number (Python `repr`). -/
def natDecimal (n : Nat) : PyStr :=
  if h : n < 10 then [48 + n] else natDecimal (n / 10) ++ [48 + n % 10]
decreasing_by exact Nat.div_lt_self (by omega) (by omega)

/-- Python `repr` of an int: decimal digits with a leading `-` when
negative (what `json.dumps` writes for ints). -/
def intDecimal (i : Int) : PyStr :=
  if i < 0 then 45 :: natDecimal i.natAbs else natDecimal i.natAbs

mutual

/-- `json.dumps(·, indent=2)` at indentation width `ind`, for values whose
dicts are already in output (key-sorted) order — `to_json` canonicalizes
first.  A float serializes as the text it carries: `json.dumps` writes
`float.__repr__(x)` for a finite float (and `Infinity`/`NaN` — not valid
JSON — for the non-finite ones, which `wfVal` therefore excludes). -/
def emitVal (ind : Nat) : PyVal → Option PyStr
  | .pstr s => some (quoteJson s)
  | .pint n => some (intDecimal n)
  | .pbool true => some (pystr "true")
  | .pbool false => some (pystr "false")
  | .pnone => some (pystr "null")
  | .pfloat r => some r
  | .plist [] => some (pystr "[]")
  | .plist (x :: xs) =>
    match emitItems (ind + 2) (x :: xs) with
    | some body => some (91 :: 10 :: (body ++ 10 :: (spaces ind ++ [93])))
    | none => none
  | .pdict [] => some (pystr "{}")
  | .pdict (kv :: kvs) =>
    match emitMembers (ind + 2) (kv :: kvs) with
    | some body => some (123 :: 10 :: (body ++ 10 :: (spaces ind ++ [125])))
    | none => none

/-- The lines of an array body, separated by `,\n`, each indented. -/
def emitItems (ind : Nat) : List PyVal → Option PyStr
  | [] => some []
  | [x] =>
    match emitVal ind x with
    | some sx => some (spaces ind ++ sx)
    | none => none
  | x :: xs =>
    match emitVal ind x, emitItems ind xs with
    | some sx, some rest => some (spaces ind ++ sx ++ 44 :: 10 :: rest)
    | _, _ => none

/-- The lines of an object body: `"key": value`, separated by `,\n`. -/
def emitMembers (ind : Nat) : List (PyStr × PyVal) → Option PyStr
  | [] => some []
  | [(k, v)] =>
    match emitVal ind v with
    | some sv => some (spaces ind ++ quoteJson k ++ 58 :: 32 :: sv)
    | none => none
  | (k, v) :: kvs =>
    match emitVal ind v, emitMembers ind kvs with
    | some sv, some rest =>
      some (spaces ind ++ quoteJson k ++ 58 :: 32 :: sv ++ 44 :: 10 :: rest)
    | _, _ => none

end

/-- `to_json` (source lines 46-47):
`json.dumps(inv_dict, sort_keys=True, indent=2)`, i.e. emission with every
object's keys in sorted order and two-space indentation. -/
def to_json (v : PyVal) : Option PyStr := emitVal 0 (canon v)

/-- Skip JSON whitespace (space, tab, newline, carriage return). -/
def skipWs : PyStr → PyStr
  | [] => []
  | c :: rest => if c = 32 ∨ c = 9 ∨ c = 10 ∨ c = 13 then skipWs rest else c :: rest

/-- Value of one hex digit (both cases), as `json.loads` reads `\uXXXX`. -/
def hexDigVal (c : Nat) : Option Nat :=
  if 48 ≤ c ∧ c ≤ 57 then some (c - 48)
  else if 97 ≤ c ∧ c ≤ 102 then some (c - 87)
  else if 65 ≤ c ∧ c ≤ 70 then some (c - 55)
  else none

/-- Value of four hex digits. -/
def hex4Val (a b c d : Nat) : Option Nat :=
  match hexDigVal a, hexDigVal b, hexDigVal c, hexDigVal d with
  | some x, some y, some z, some w => some (((x * 16 + y) * 16 + z) * 16 + w)
  | _, _, _, _ => none

/-- Prepend a parsed character to a string-scanner result. -/
def mapConsStr (c : Nat) : Option (PyStr × PyStr) → Option (PyStr × PyStr)
  | some (s, r) => some (c :: s, r)
  | none => none

mutual

/-- The string scanner of `json.loads` (CPython `py_scanstring`) after the
opening quote: plain characters up to the closing `"`, and backslash
escapes (`parseEsc`). -/
def parseStrBody : PyStr → Option (PyStr × PyStr)
  | [] => none
  | c :: rest =>
    if c = 34 then some ([], rest)
    else if c = 92 then parseEsc rest
    else mapConsStr c (parseStrBody rest)
termination_by s => 2 * s.length

/-- After a backslash: the short escapes `\" \\ \/ \b \f \n \r \t` or a
`\uXXXX` sequence (`parseU`); anything else is a scan error. -/
def parseEsc : PyStr → Option (PyStr × PyStr)
  | [] => none
  | e :: rest =>
    if e = 34 then mapConsStr 34 (parseStrBody rest)
    else if e = 92 then mapConsStr 92 (parseStrBody rest)
    else if e = 47 then mapConsStr 47 (parseStrBody rest)
    else if e = 98 then mapConsStr 8 (parseStrBody rest)
    else if e = 102 then mapConsStr 12 (parseStrBody rest)
    else if e = 110 then mapConsStr 10 (parseStrBody rest)
    else if e = 114 then mapConsStr 13 (parseStrBody rest)
    else if e = 116 then mapConsStr 9 (parseStrBody rest)
    else if e = 117 then parseU rest
    else none
termination_by s => 2 * s.length + 1

/-- After `\u`: four hex digits; a high-surrogate value looks for a
following low surrogate (`parseLo`), as CPython recombines pairs. -/
def parseU : PyStr → Option (PyStr × PyStr)
  | a :: b :: c :: d :: rest =>
    match hex4Val a b c d with
    | none => none
    | some n =>
      if 55296 ≤ n ∧ n ≤ 56319 then parseLo n rest
      else mapConsStr n (parseStrBody rest)
  | _ => none
termination_by s => 2 * s.length + 1

/-- After a high-surrogate `\uXXXX` of value `n`: combine with a
following `\uXXXX` low surrogate into one code point, or keep `n` as-is
(CPython keeps unpaired surrogates). -/
def parseLo (n : Nat) : PyStr → Option (PyStr × PyStr)
  | 92 :: 117 :: a2 :: b2 :: c2 :: d2 :: rest2 =>
    match hex4Val a2 b2 c2 d2 with
    | none => none
    | some m =>
      if 56320 ≤ m ∧ m ≤ 57343 then
        mapConsStr (65536 + (n - 55296) * 1024 + (m - 56320)) (parseStrBody rest2)
      else mapConsStr n (parseStrBody (92 :: 117 :: a2 :: b2 :: c2 :: d2 :: rest2))
  | s => mapConsStr n (parseStrBody s)
termination_by s => 2 * s.length + 1

end

/-- Greedily consume decimal digits, Horner-accumulating their value. -/
def digitsVal (acc : Nat) : PyStr → Nat × PyStr
  | [] => (acc, [])
  | c :: rest =>
    if 48 ≤ c ∧ c ≤ 57 then digitsVal (acc * 10 + (c - 48)) rest else (acc, c :: rest)

/-- Greedily split off a leading run of decimal digits: the characters and
what follows them, as the greedy digit groups of the number regex do. -/
def digitsSpan : PyStr → PyStr × PyStr
  | [] => ([], [])
  | c :: rest =>
    if 48 ≤ c ∧ c ≤ 57 then (c :: (digitsSpan rest).1, (digitsSpan rest).2)
    else ([], c :: rest)

/-- The fraction part `.digits` of a number token, with the characters it
consumed; `none` when absent. -/
def parseFrac : PyStr → Option (PyStr × PyStr)
  | [] => none
  | c :: rest =>
    if c = 46 then
      if (digitsSpan rest).1 = [] then none
      else some (46 :: (digitsSpan rest).1, (digitsSpan rest).2)
    else none

/-- After the `e`/`E` opening an exponent: an optional sign, then digits. -/
def parseExpSign (e : Nat) : PyStr → Option (PyStr × PyStr)
  | [] => none
  | c :: rest =>
    if c = 43 ∨ c = 45 then
      if (digitsSpan rest).1 = [] then none
      else some (e :: c :: (digitsSpan rest).1, (digitsSpan rest).2)
    else
      if (digitsSpan (c :: rest)).1 = [] then none
      else some (e :: (digitsSpan (c :: rest)).1, (digitsSpan (c :: rest)).2)

/-- The exponent part `[eE][+-]?digits` of a number token; `none` when
absent. -/
def parseExp : PyStr → Option (PyStr × PyStr)
  | [] => none
  | e :: rest => if e = 101 ∨ e = 69 then parseExpSign e rest else none

/-- The fraction-and-exponent tail of a number token (groups 2 and 3 of
the NUMBER_RE regex the scanner matches); `none` when both are absent,
i.e. when the token is an integer. -/
def parseFracExp (s : PyStr) : Option (PyStr × PyStr) :=
  match parseFrac s with
  | some fr =>
    match parseExp fr.2 with
    | some er => some (fr.1 ++ er.1, er.2)
    | none => some fr
  | none => parseExp s

/-- An unsigned number token: integer digits, then an optional fraction
and exponent.  Without fraction and exponent the token is an int and
becomes its value; with either it is a float and becomes `float(text)` —
under the representation of doubles by their `repr` text, the canonical
texts the serializer writes stand for themselves. -/
def parseNumPos (s : PyStr) : Option (PyVal × PyStr) :=
  if (digitsSpan s).1 = [] then none
  else
    match parseFracExp (digitsSpan s).2 with
    | some fr => some (.pfloat ((digitsSpan s).1 ++ fr.1), fr.2)
    | none => some (.pint ((digitsVal 0 (digitsSpan s).1).1 : Int), (digitsSpan s).2)

/-- Negation of a scanned number (a `-` before the unsigned token). -/
def negNum : PyVal → PyVal
  | .pint n => .pint (-n)
  | .pfloat t => .pfloat (45 :: t)
  | v => v

/-- Read a number token: optional `-`, then an unsigned number. -/
def parseNumTok : PyStr → Option (PyVal × PyStr)
  | [] => none
  | c :: rest =>
    if c = 45 then (parseNumPos rest).map fun vr => (negNum vr.1, vr.2)
    else parseNumPos (c :: rest)

/-- The float texts the scanner reads back in one exact token.  This holds
of `repr(x)` for every finite Python float (those always carry a `.` or an
exponent, e.g. `2.5`, `-1.3e-07`), which is what `json.dumps` writes; the
non-finite floats serialize as `Infinity`/`NaN` — not valid JSON — and
fall outside it. -/
def floatTok (r : PyStr) : Bool :=
  match parseNumTok r with
  | some (.pfloat r2, rest) => r2 == r && rest == []
  | _ => false

/-- Head and tail of a nonempty string, as one step of the scanner. -/
def headTail : PyStr → Option (Nat × PyStr)
  | [] => none
  | c :: t => some (c, t)

/-- Match a literal character sequence at the front, returning what
follows it. -/
def litTok : PyStr → PyStr → Option PyStr
  | [], s => some s
  | _ :: _, [] => none
  | l :: ls, c :: cs => if c = l then litTok ls cs else none

mutual

/-- The recursive-descent value scanner of `json.loads`, with explicit
fuel (each nested or repeated step consumes one unit; `json_loads`
supplies more fuel than any input can need).  Whitespace before a value
is skipped, then `parseTok` dispatches on the first character. -/
def parseVal : Nat → PyStr → Option (PyVal × PyStr)
  | 0, _ => none
  | fuel + 1, s => parseTok fuel (skipWs s)
termination_by fuel _ => 3 * fuel
decreasing_by all_goals omega

/-- Dispatch on the first character of a token, as CPython's `py_scanner`
does: `"` starts a string, `{` an object, `[` an array, `t`/`f`/`n` the
literals `true`/`false`/`null`, anything else is read as a number. -/
def parseTok : Nat → PyStr → Option (PyVal × PyStr)
  | _, [] => none
  | fuel, c :: rest =>
    if c = 34 then
      (parseStrBody rest).bind fun sr => some (.pstr sr.1, sr.2)
    else if c = 123 then
      (headTail (skipWs rest)).bind fun dr =>
        if dr.1 = 125 then some (.pdict [], dr.2)
        else
          (parseMembers fuel (dr.1 :: dr.2)).bind fun kr =>
            some (.pdict kr.1, kr.2)
    else if c = 91 then
      (headTail (skipWs rest)).bind fun dr =>
        if dr.1 = 93 then some (.plist [], dr.2)
        else
          (parseItems fuel (dr.1 :: dr.2)).bind fun xr =>
            some (.plist xr.1, xr.2)
    else if c = 116 then
      (litTok [114, 117, 101] rest).map fun r => (.pbool true, r)
    else if c = 102 then
      (litTok [97, 108, 115, 101] rest).map fun r => (.pbool false, r)
    else if c = 110 then
      (litTok [117, 108, 108] rest).map fun r => (.pnone, r)
    else parseNumTok (c :: rest)
termination_by fuel _ => 3 * fuel + 2
decreasing_by all_goals omega

/-- Object members: `"key": value`, separated by commas, ended by `}`. -/
def parseMembers : Nat → PyStr → Option (List (PyStr × PyVal) × PyStr)
  | 0, _ => none
  | _ + 1, [] => none
  | fuel + 1, c :: rest =>
    if c = 34 then
      (parseStrBody rest).bind fun kr =>
        (headTail (skipWs kr.2)).bind fun dr =>
          if dr.1 = 58 then
            (parseVal fuel dr.2).bind fun vr =>
              (headTail (skipWs vr.2)).bind fun er =>
                if er.1 = 44 then
                  (parseMembers fuel (skipWs er.2)).bind fun tr =>
                    some ((kr.1, vr.1) :: tr.1, tr.2)
                else if er.1 = 125 then some ([(kr.1, vr.1)], er.2)
                else none
          else none
    else none
termination_by fuel _ => 3 * fuel + 1
decreasing_by all_goals omega

/-- Array items, separated by commas, ended by `]`. -/
def parseItems : Nat → PyStr → Option (List PyVal × PyStr)
  | 0, _ => none
  | fuel + 1, s =>
    (parseVal fuel s).bind fun vr =>
      (headTail (skipWs vr.2)).bind fun er =>
        if er.1 = 44 then
          (parseItems fuel (skipWs er.2)).bind fun xr =>
            some (vr.1 :: xr.1, xr.2)
        else if er.1 = 93 then some ([vr.1], er.2)
        else none
termination_by fuel _ => 3 * fuel + 1
decreasing_by all_goals omega

end

/-- `json.loads`: parse one value, then require only whitespace after it. -/
def json_loads (s : PyStr) : Option PyVal :=
  match parseVal (s.length + 1) s with
  | some (v, rest) => if skipWs rest = [] then some v else none
  | none => none

/-- A Unicode scalar value: what a decoded (non-surrogate) code point of a
string arriving from a JSON API is. -/
def scalarChar (c : Nat) : Bool :=
  decide (c < 1114112) && !(decide (55296 ≤ c) && decide (c ≤ 57343))

/-- All characters are scalar values. -/
def scalarStr (s : PyStr) : Bool := s.all scalarChar

mutual

/-- Well-formedness of a value for the JSON round trip: every string
consists of scalar values (adjacent surrogate code points would be
recombined by the parser — they cannot occur in strings that were
themselves decoded from JSON) and every dict has distinct keys (a dict by
construction); a float carries the text of a finite float, the only kind
whose serialization is valid JSON. -/
def wfVal : PyVal → Bool
  | .pstr s => scalarStr s
  | .pint _ => true
  | .pfloat r => floatTok r
  | .pbool _ => true
  | .pnone => true
  | .plist xs => wfItems xs
  | .pdict kvs => decide ((kvs.map Prod.fst).Nodup) && wfMembers kvs

def wfItems : List PyVal → Bool
  | [] => true
  | x :: xs => wfVal x && wfItems xs

def wfMembers : List (PyStr × PyVal) → Bool
  | [] => true
  | (k, v) :: kvs => scalarStr k && wfVal v && wfMembers kvs

end

mutual

/-- Fuel needed by `parseVal` for a value (one unit per parser step). -/
def needVal : PyVal → Nat
  | .plist xs => 1 + needItems xs
  | .pdict kvs => 1 + needMembers kvs
  | _ => 1

def needItems : List PyVal → Nat
  | [] => 0
  | x :: xs => 1 + needVal x + needItems xs

def needMembers : List (PyStr × PyVal) → Nat
  | [] => 0
  | kv :: kvs => 1 + needVal kv.2 + needMembers kvs

end

/-- Adjacent-pairs check that a key list is in (non-strict) sorted order
under the Python string comparison. -/
def keysSortedLe : List PyStr → Bool
  | [] => true
  | [_] => true
  | a :: b :: rest => !strLt b a && keysSortedLe (b :: rest)

mutual

/-- Every object in the value lists its keys in sorted order. -/
def sortedKeysB : PyVal → Bool
  | .plist xs => sortedKeysList xs
  | .pdict kvs => keysSortedLe (kvs.map Prod.fst) && sortedKeysKVs kvs
  | _ => true

def sortedKeysList : List PyVal → Bool
  | [] => true
  | x :: xs => sortedKeysB x && sortedKeysList xs

def sortedKeysKVs : List (PyStr × PyVal) → Bool
  | [] => true
  | kv :: kvs => sortedKeysB kv.2 && sortedKeysKVs kvs

end

/-- Python `==` between values: numbers, booleans, `None` and strings by
value, lists pointwise, dicts as finite maps (same keys, equal values —
entry order is irrelevant). -/
inductive PyEquiv : PyVal → PyVal → Prop where
  | pstr (s : PyStr) : PyEquiv (.pstr s) (.pstr s)
  | pint (n : Int) : PyEquiv (.pint n) (.pint n)
  | pfloat (t : PyStr) : PyEquiv (.pfloat t) (.pfloat t)
  | pbool (b : Bool) : PyEquiv (.pbool b) (.pbool b)
  | pnone : PyEquiv .pnone .pnone
  | plist (xs ys : List PyVal) : xs.length = ys.length →
      (∀ p ∈ xs.zip ys, PyEquiv p.1 p.2) → PyEquiv (.plist xs) (.plist ys)
  | pdict (as1 bs1 : List (PyStr × PyVal)) :
      (∀ k, (dictGet as1 k).isSome = (dictGet bs1 k).isSome) →
      (∀ k v w, dictGet as1 k = some v → dictGet bs1 k = some w → PyEquiv v w) →
      PyEquiv (.pdict as1) (.pdict bs1)

/-! ## Theorems -/

/-- Collapse two leading failed conditions of a nested conditional. -/
theorem ite_neg2 {c1 c2 : Prop} [Decidable c1] [Decidable c2] {A : Sort u}
    (h1 : ¬c1) (h2 : ¬c2) {t1 t2 e : A} :
    (if c1 then t1 else if c2 then t2 else e) = e := by
  rw [if_neg h1]
  rw [if_neg h2]


theorem pyLowerChar_idem (c : Nat) : pyLowerChar (pyLowerChar c) = pyLowerChar c := by
  unfold pyLowerChar
  split
  · split <;> omega
  · rfl

theorem pyLower_idem (s : PyStr) : pyLower (pyLower s) = pyLower s := by
  simp [pyLower, Function.comp, pyLowerChar_idem]

theorem pyLowerChar_eq_58 (c : Nat) : pyLowerChar c = 58 ↔ c = 58 := by
  unfold pyLowerChar; split <;> omega

theorem noColonPair_cons_ne (c : Nat) (h : c ≠ 58) (l : PyStr) :
    noColonPair (c :: l) = noColonPair l := by
  cases l with
  | nil => simp [noColonPair]
  | cons d rest => simp [noColonPair, h]

theorem replaceColons_cons_ne (d : Nat) (h : d ≠ 58) (rest : PyStr) :
    replaceColons (d :: rest) = d :: replaceColons rest := by
  cases rest with
  | nil => simp [replaceColons]
  | cons e r => simp [replaceColons, h]

theorem noColonPair_replaceColons (l : PyStr) :
    noColonPair (replaceColons l) = true := by
  induction l using replaceColons.induct with
  | case1 => simp [replaceColons, noColonPair]
  | case2 c => simp [replaceColons, noColonPair]
  | case3 c d rest h ih =>
    obtain ⟨hc, hd⟩ := h
    subst hc hd
    rw [replaceColons, if_pos ⟨rfl, rfl⟩, noColonPair_cons_ne 95 (by omega)]
    exact ih
  | case4 c d rest h ih =>
    rw [replaceColons, if_neg h]
    by_cases hc : c = 58
    · subst hc
      have hd : d ≠ 58 := fun hd => h ⟨rfl, hd⟩
      rw [replaceColons_cons_ne d hd]
      rw [replaceColons_cons_ne d hd] at ih
      simpa [noColonPair, hd] using ih
    · rw [noColonPair_cons_ne c hc]
      exact ih

theorem replaceColons_of_noColonPair (l : PyStr) (h : noColonPair l = true) :
    replaceColons l = l := by
  induction l using replaceColons.induct with
  | case1 => rfl
  | case2 c => rfl
  | case3 c d rest h2 ih =>
    obtain ⟨hc, hd⟩ := h2
    subst hc hd
    simp [noColonPair] at h
  | case4 c d rest h2 ih =>
    rw [replaceColons, if_neg h2]
    have : noColonPair (d :: rest) = true := by
      cases rest <;> simp_all [noColonPair]
    rw [ih this]

theorem replaceColons_idem (l : PyStr) :
    replaceColons (replaceColons l) = replaceColons l :=
  replaceColons_of_noColonPair _ (noColonPair_replaceColons l)

theorem replaceColons_pyLower (l : PyStr) :
    replaceColons (pyLower l) = pyLower (replaceColons l) := by
  induction l using replaceColons.induct with
  | case1 => rfl
  | case2 c => rfl
  | case3 c d rest h ih =>
    obtain ⟨hc, hd⟩ := h
    subst hc hd
    have h58 : pyLowerChar 58 = 58 := by simp [pyLowerChar]
    have h95 : pyLowerChar 95 = 95 := by simp [pyLowerChar]
    simp only [pyLower, List.map_cons, h58]
    rw [replaceColons, if_pos ⟨rfl, rfl⟩, replaceColons, if_pos ⟨rfl, rfl⟩]
    simp only [pyLower] at ih
    simp [ih, h95]
  | case4 c d rest h ih =>
    have hcd : ¬(pyLowerChar c = 58 ∧ pyLowerChar d = 58) := by
      intro ⟨h1, h2⟩
      exact h ⟨(pyLowerChar_eq_58 c).mp h1, (pyLowerChar_eq_58 d).mp h2⟩
    simp only [pyLower, List.map_cons]
    rw [replaceColons, if_neg hcd, replaceColons, if_neg h]
    simp only [pyLower, List.map_cons] at ih
    simp [ih]

theorem groupName_eq_spec (strip : PyStr → PyStr) (name : PyStr) :
    groupName strip name = groupNameSpec strip name := by
  rw [groupName, groupNameSpec, replaceColons_pyLower]

theorem groupName_idem (strip : PyStr → PyStr) (s : PyStr)
    (h : strip (groupName strip s) = groupName strip s) :
    groupName strip (groupName strip s) = groupName strip s := by
  rw [groupName, h]
  show replaceColons (pyLower (replaceColons (pyLower (strip s)))) = _
  rw [replaceColons_pyLower, replaceColons_idem, ← replaceColons_pyLower,
    pyLower_idem]
  rfl

theorem dictGet_dictSet_self (d : Dict) (k : PyStr) (v : PyVal) :
    dictGet (dictSet d k v) k = some v := by
  induction d with
  | nil => simp [dictGet, dictSet]
  | cons kv rest ih =>
    obtain ⟨k0, v0⟩ := kv
    by_cases h : k0 = k <;> simp [dictGet, dictSet, h, ih]

theorem dictGet_dictSet_ne (d : Dict) (k : PyStr) (v : PyVal) (k' : PyStr)
    (h : k ≠ k') : dictGet (dictSet d k v) k' = dictGet d k' := by
  induction d with
  | nil => simp [dictGet, dictSet, h]
  | cons kv rest ih =>
    obtain ⟨k0, v0⟩ := kv
    by_cases h0 : k0 = k
    · subst h0
      simp [dictGet, dictSet, h]
    · by_cases h1 : k0 = k' <;> simp [dictGet, dictSet, h0, h1, ih, Ne.symm h]

theorem extendHosts_nil (cur : Option (List PyVal)) : extendHosts cur [] = cur := by
  cases cur <;> simp [extendHosts]

theorem selHosts_cons (strip : PyStr → PyStr) (nodes : List PyStr) (g : PyStr)
    (r : PyResource) (rs : List PyResource) :
    selHosts strip nodes g (r :: rs) =
      if r.node ∈ nodes ∧ groupName strip r.name = g then
        .pstr r.node :: selHosts strip nodes g rs
      else selHosts strip nodes g rs := by
  simp only [selHosts, List.filter_cons]
  by_cases h1 : r.node ∈ nodes <;> by_cases h2 : groupName strip r.name = g <;>
    simp [h1, h2]

theorem addResource_skip (strip : PyStr → PyStr) (nodes : List PyStr)
    (out : Dict) (r : PyResource) (h : r.node ∉ nodes) :
    addResource strip nodes out r = .ok out := by
  simp [addResource, h]

theorem addResource_meta (strip : PyStr → PyStr) (nodes : List PyStr)
    (out : Dict) (r : PyResource) (metaV : Dict)
    (h : r.node ∈ nodes) (hg : groupName strip r.name = metaKey)
    (hm : dictGet out metaKey = some (.pdict metaV))
    (hmh : dictGet metaV hostsKey = none) :
    addResource strip nodes out r = .error (.keyError hostsKey) := by
  simp [addResource, h, hg, hm, hmh]

theorem addResource_new (strip : PyStr → PyStr) (nodes : List PyStr)
    (out : Dict) (r : PyResource)
    (h : r.node ∈ nodes) (hcur : dictGet out (groupName strip r.name) = none) :
    addResource strip nodes out r =
      .ok (dictSet out (groupName strip r.name) (groupVal [.pstr r.node])) := by
  simp [addResource, h, hcur, groupVal]

theorem addResource_append (strip : PyStr → PyStr) (nodes : List PyStr)
    (out : Dict) (r : PyResource) (hs : List PyVal)
    (h : r.node ∈ nodes)
    (hcur : dictGet out (groupName strip r.name) = some (groupVal hs)) :
    addResource strip nodes out r =
      .ok (dictSet out (groupName strip r.name)
        (groupVal (hs ++ [.pstr r.node]))) := by
  have hget : dictGet [(hostsKey, PyVal.plist hs), (varsKey, PyVal.pdict [])] hostsKey
      = some (.plist hs) := by
    simp [dictGet]
  have hset : dictSet [(hostsKey, PyVal.plist hs), (varsKey, PyVal.pdict [])] hostsKey
      (.plist (hs ++ [.pstr r.node]))
      = [(hostsKey, PyVal.plist (hs ++ [.pstr r.node])), (varsKey, PyVal.pdict [])] := by
    simp [dictSet]
  simp only [addResource, if_pos h, groupVal] at *
  rw [hcur]
  simp only [hget, hset]

theorem except_ok_bind {α β : Type} (a : α) (f : α → Except PyErr β) :
    (Except.ok a : Except PyErr α) >>= f = f a := rfl

theorem except_error_bind {α β : Type} (e : PyErr) (f : α → Except PyErr β) :
    (Except.error e : Except PyErr α) >>= f = .error e := rfl

/-- Setting a group entry to a group dict preserves the output-shape
invariant. -/
theorem GoodOut_set (metaV : Dict) (out : Dict) (g : PyStr) (hs : List PyVal)
    (hout : GoodOut metaV out) (hg : g ≠ metaKey) :
    GoodOut metaV (dictSet out g (groupVal hs)) := by
  obtain ⟨hm, hmh, hgroups⟩ := hout
  refine ⟨?_, hmh, ?_⟩
  · rw [dictGet_dictSet_ne _ _ _ _ hg]; exact hm
  · intro g2 hg2
    by_cases hgg : g = g2
    · subst hgg
      rw [dictGet_dictSet_self]
      simp [hostsOf, groupVal, dictGet]
    · rw [dictGet_dictSet_ne _ _ _ _ hgg]
      exact hgroups g2 hg2

/-- A well-formed non-meta group entry is `none` or a group dict. -/
theorem GoodOut_entry (metaV : Dict) (out : Dict) (g : PyStr)
    (hout : GoodOut metaV out) (hg : g ≠ metaKey) :
    dictGet out g = none ∨ ∃ hs, dictGet out g = some (groupVal hs) := by
  obtain ⟨-, -, hgroups⟩ := hout
  have hshape := hgroups g hg
  cases hcur : dictGet out g with
  | none => exact Or.inl rfl
  | some v =>
    rw [hcur] at hshape
    cases hv : hostsOf (some v) with
    | none =>
      rw [hv] at hshape
      exact (Option.some_ne_none v hshape).elim
    | some hs =>
      rw [hv] at hshape
      exact Or.inr ⟨hs, Option.some.inj (hshape : some v = some (groupVal hs)) ▸ rfl⟩

/-- If some resource of the list owns a discovered node and normalizes to
`"_meta"`, the resource loop aborts with `KeyError('hosts')`. -/
theorem foldRes_meta_error (strip : PyStr → PyStr) (nodes : List PyStr)
    (metaV : Dict) :
    ∀ (rs : List PyResource) (out : Dict), GoodOut metaV out →
    (∃ r ∈ rs, r.node ∈ nodes ∧ groupName strip r.name = metaKey) →
    rs.foldlM (addResource strip nodes) out = .error (.keyError hostsKey) := by
  intro rs
  induction rs with
  | nil => intro out _ h; simp at h
  | cons r rs ih =>
    intro out hout hex
    obtain ⟨hm, hmh, hgroups⟩ := hout
    rw [List.foldlM_cons]
    by_cases hmeta : r.node ∈ nodes ∧ groupName strip r.name = metaKey
    · rw [addResource_meta strip nodes out r metaV hmeta.1 hmeta.2 hm hmh]
      rfl
    · have hex' : ∃ q ∈ rs, q.node ∈ nodes ∧ groupName strip q.name = metaKey := by
        obtain ⟨q, hq, hqq⟩ := hex
        rcases List.mem_cons.mp hq with h | h
        · exact absurd (h ▸ hqq) hmeta
        · exact ⟨q, h, hqq⟩
      by_cases hn : r.node ∈ nodes
      · have hgne : groupName strip r.name ≠ metaKey := fun hh => hmeta ⟨hn, hh⟩
        have hshape := hgroups _ hgne
        cases hcur : dictGet out (groupName strip r.name) with
        | none =>
          rw [addResource_new strip nodes out r hn hcur, except_ok_bind]
          refine ih _ ⟨?_, hmh, ?_⟩ hex'
          · rw [dictGet_dictSet_ne _ _ _ _ hgne]; exact hm
          · intro g hg
            by_cases hgg : groupName strip r.name = g
            · subst hgg
              rw [dictGet_dictSet_self]
              simp [hostsOf, groupVal, dictGet]
            · rw [dictGet_dictSet_ne _ _ _ _ hgg]
              exact hgroups g hg
        | some v =>
          rw [hcur] at hshape
          cases hv : hostsOf (some v) with
          | none =>
            rw [hv] at hshape
            exact (Option.some_ne_none v hshape).elim
          | some hs =>
            rw [hv] at hshape
            have hv2 : v = groupVal hs := by
              have : some v = some (groupVal hs) := hshape
              exact Option.some.inj this
            have hcur' : dictGet out (groupName strip r.name) = some (groupVal hs) := by
              rw [hcur, hv2]
            rw [addResource_append strip nodes out r hs hn hcur', except_ok_bind]
            refine ih _ ⟨?_, hmh, ?_⟩ hex'
            · rw [dictGet_dictSet_ne _ _ _ _ hgne]; exact hm
            · intro g hg
              by_cases hgg : groupName strip r.name = g
              · subst hgg
                rw [dictGet_dictSet_self]
                simp [hostsOf, groupVal, dictGet]
              · rw [dictGet_dictSet_ne _ _ _ _ hgg]
                exact hgroups g hg
      · rw [addResource_skip strip nodes out r hn, except_ok_bind]
        exact ih out ⟨hm, hmh, hgroups⟩ hex'

/-- If no resource of the list collides with `"_meta"`, the resource loop
succeeds, keeps the output well-formed, and every group's entry ends up
holding exactly its previous hosts extended by the hosts the list
contributes to it (`selHosts`), in iteration order. -/
theorem foldRes_ok (strip : PyStr → PyStr) (nodes : List PyStr) (metaV : Dict) :
    ∀ (rs : List PyResource) (out : Dict), GoodOut metaV out →
    (∀ r ∈ rs, r.node ∈ nodes → groupName strip r.name ≠ metaKey) →
    ∃ fin, rs.foldlM (addResource strip nodes) out = .ok fin ∧
      GoodOut metaV fin ∧
      ∀ g, g ≠ metaKey →
        dictGet fin g =
          (extendHosts (hostsOf (dictGet out g)) (selHosts strip nodes g rs)).map
            groupVal := by
  intro rs
  induction rs with
  | nil =>
    intro out hout _
    refine ⟨out, by rfl, hout, ?_⟩
    intro g hg
    rw [selHosts, List.filter_nil, List.map_nil, extendHosts_nil]
    exact hout.2.2 g hg
  | cons r rs ih =>
    intro out hout hnometa
    have hnometa' : ∀ q ∈ rs, q.node ∈ nodes → groupName strip q.name ≠ metaKey :=
      fun q hq => hnometa q (List.mem_cons_of_mem r hq)
    rw [List.foldlM_cons]
    by_cases hn : r.node ∈ nodes
    · have hgne : groupName strip r.name ≠ metaKey := hnometa r (List.mem_cons_self r rs) hn
      rcases GoodOut_entry metaV out _ hout hgne with hcur | ⟨hs, hcur⟩
      · rw [addResource_new strip nodes out r hn hcur, except_ok_bind]
        obtain ⟨fin, hfold, hfin, hchar⟩ :=
          ih (dictSet out (groupName strip r.name) (groupVal [.pstr r.node]))
            (GoodOut_set metaV out _ _ hout hgne) hnometa'
        refine ⟨fin, hfold, hfin, ?_⟩
        intro g hg
        rw [hchar g hg, selHosts_cons]
        by_cases hgg : groupName strip r.name = g
        · subst hgg
          rw [if_pos ⟨hn, rfl⟩, dictGet_dictSet_self, hcur]
          rfl
        · rw [dictGet_dictSet_ne _ _ _ _ hgg,
            if_neg (fun hh => hgg (hh.2 : groupName strip r.name = g))]
      · rw [addResource_append strip nodes out r hs hn hcur, except_ok_bind]
        obtain ⟨fin, hfold, hfin, hchar⟩ :=
          ih (dictSet out (groupName strip r.name) (groupVal (hs ++ [.pstr r.node])))
            (GoodOut_set metaV out _ _ hout hgne) hnometa'
        refine ⟨fin, hfold, hfin, ?_⟩
        intro g hg
        rw [hchar g hg, selHosts_cons]
        by_cases hgg : groupName strip r.name = g
        · subst hgg
          rw [if_pos ⟨hn, rfl⟩, dictGet_dictSet_self, hcur]
          show some (groupVal ((hs ++ [PyVal.pstr r.node]) ++
              selHosts strip nodes (groupName strip r.name) rs)) =
            some (groupVal (hs ++ PyVal.pstr r.node ::
              selHosts strip nodes (groupName strip r.name) rs))
          rw [List.append_assoc]
          rfl
        · rw [dictGet_dictSet_ne _ _ _ _ hgg,
            if_neg (fun hh => hgg (hh.2 : groupName strip r.name = g))]
    · rw [addResource_skip strip nodes out r hn, except_ok_bind]
      obtain ⟨fin, hfold, hfin, hchar⟩ := ih out hout hnometa'
      refine ⟨fin, hfold, hfin, ?_⟩
      intro g hg
      rw [hchar g hg, selHosts_cons, if_neg (fun hh => hn hh.1)]

theorem hostvars_fold_error_iff : ∀ (facts : List PyFact) (acc : Dict),
    (∃ n, facts.foldlM hostvarsStep acc = .error (.valueError n)) ↔
      ∃ f ∈ facts, isFactValueType f.value = false := by
  intro facts
  induction facts with
  | nil =>
    intro acc
    simp [List.foldlM_nil, pure, Except.pure]
  | cons f rest ih =>
    intro acc
    rw [List.foldlM_cons]
    by_cases hf : isFactValueType f.value
    · rw [show hostvarsStep acc f = .ok (dictSet acc f.name f.value) by
        simp [hostvarsStep, hf], except_ok_bind]
      rw [ih]
      simp [hf]
    · rw [show hostvarsStep acc f = .error (.valueError f.name) by
        simp [hostvarsStep, hf], except_error_bind]
      simp only [Bool.not_eq_true] at hf
      constructor
      · intro _; exact ⟨f, List.mem_cons_self f rest, hf⟩
      · intro _; exact ⟨f.name, rfl⟩

theorem hostvars_fold_untouched : ∀ (facts : List PyFact) (acc hv : Dict) (k : PyStr),
    facts.foldlM hostvarsStep acc = .ok hv → (∀ f ∈ facts, f.name ≠ k) →
    dictGet hv k = dictGet acc k := by
  intro facts
  induction facts with
  | nil =>
    intro acc hv k h _
    cases h
    rfl
  | cons f rest ih =>
    intro acc hv k h hne
    rw [List.foldlM_cons] at h
    by_cases hf : isFactValueType f.value
    · rw [show hostvarsStep acc f = .ok (dictSet acc f.name f.value) by
        simp [hostvarsStep, hf], except_ok_bind] at h
      rw [ih _ _ _ h (fun q hq => hne q (List.mem_cons_of_mem f hq)),
        dictGet_dictSet_ne _ _ _ _ (hne f (List.mem_cons_self f rest))]
    · rw [show hostvarsStep acc f = .error (.valueError f.name) by
        simp [hostvarsStep, hf], except_error_bind] at h
      cases h

theorem hostvars_fold_get : ∀ (facts : List PyFact) (acc hv : Dict),
    facts.foldlM hostvarsStep acc = .ok hv → (facts.map PyFact.name).Nodup →
    ∀ f ∈ facts, dictGet hv f.name = some f.value := by
  intro facts
  induction facts with
  | nil =>
    intro acc hv _ _ f hf
    cases hf
  | cons f0 rest ih =>
    intro acc hv h hnd f hf
    rw [List.foldlM_cons] at h
    by_cases hf0 : isFactValueType f0.value
    · rw [show hostvarsStep acc f0 = .ok (dictSet acc f0.name f0.value) by
        simp [hostvarsStep, hf0], except_ok_bind] at h
      simp only [List.map_cons, List.nodup_cons] at hnd
      rcases List.mem_cons.mp hf with rfl | hmem
      · have : ∀ q ∈ rest, q.name ≠ f.name := by
          intro q hq hqe
          exact hnd.1 (hqe ▸ List.mem_map_of_mem PyFact.name hq)
        rw [hostvars_fold_untouched rest _ _ _ h this, dictGet_dictSet_self]
      · exact ih _ _ h hnd.2 f hmem
    · rw [show hostvarsStep acc f0 = .error (.valueError f0.name) by
        simp [hostvarsStep, hf0], except_error_bind] at h
      cases h

/-- **C3.** `hostvars_from_facts` raises its fatal `ValueError` iff some
fact's value is not of a primitive type (string, integer, float, boolean);
otherwise it returns the mapping from each fact name to that fact's exact
value (no coercion). -/
theorem hostvars_from_facts_spec (facts : List PyFact) :
    ((∃ n, hostvars_from_facts facts = .error (.valueError n)) ↔
      ∃ f ∈ facts, isFactValueType f.value = false) ∧
    (∀ hv, hostvars_from_facts facts = .ok hv →
      (facts.map PyFact.name).Nodup →
      ∀ f ∈ facts, dictGet hv f.name = some f.value) := by
  constructor
  · exact hostvars_fold_error_iff facts []
  · intro hv h hnd f hf
    exact hostvars_fold_get facts [] hv h hnd f hf

/-- Witness for `hostvars_from_facts_spec` at a concrete fact list. -/
theorem hostvars_from_facts_spec_witness :
    hostvars_from_facts [⟨pystr "os", .pstr (pystr "linux")⟩] =
      .ok [(pystr "os", .pstr (pystr "linux"))] ∧
    ([⟨pystr "os", .pstr (pystr "linux")⟩].map PyFact.name).Nodup ∧
    dictGet [(pystr "os", .pstr (pystr "linux"))] (pystr "os") =
      some (.pstr (pystr "linux")) :=
  ⟨rfl, by simp,
    (hostvars_from_facts_spec [⟨pystr "os", .pstr (pystr "linux")⟩]).2
      [(pystr "os", .pstr (pystr "linux"))] rfl (by simp)
      ⟨pystr "os", .pstr (pystr "linux")⟩ (List.mem_cons_self _ _)⟩

/-- **C1.** The group name the assembler emits equals the spec's transform
(strip, then substitute `::` by `_`, then lowercase) for every strip
function and resource name; and on the spec's example (strip pattern
`^motd_`, node query returning `host1`, resource `motd_Banner::Main` on
`host1`) the output holds group `banner_main` with entry
`{'hosts': ['host1'], 'vars': {}}`. -/
theorem groupName_matches_spec :
    (∀ (strip : PyStr → PyStr) (name : PyStr),
      groupName strip name = groupNameSpec strip name) ∧
    groupName stripMotd (pystr "motd_Banner::Main") = pystr "banner_main" ∧
    buildInventory stripMotd [pystr "os"]
        (fun _ => [⟨pystr "os", .pstr (pystr "linux")⟩])
        [pystr "host1"] [⟨pystr "host1", pystr "motd_Banner::Main"⟩] =
      .ok (.pdict [(metaKey, .pdict [(hostvarsKey, .pdict
          [(pystr "host1", .pdict [(pystr "os", .pstr (pystr "linux"))])])]),
        (pystr "banner_main", groupVal [.pstr (pystr "host1")])]) :=
  ⟨groupName_eq_spec, by decide, by rfl⟩

/-- **C7.** Applying the group-name transform twice is the same as applying
it once, whenever the strip pattern has no match in the transform's output
(so that its substitution fixes that output). -/
theorem groupName_transform_idem (strip : PyStr → PyStr) (s : PyStr)
    (h : strip (groupName strip s) = groupName strip s) :
    groupName strip (groupName strip s) = groupName strip s :=
  groupName_idem strip s h

/-- Witness for `groupName_transform_idem` at the example strip function
and resource name. -/
theorem groupName_transform_idem_witness :
    stripMotd (groupName stripMotd (pystr "motd_Banner::Main")) =
      groupName stripMotd (pystr "motd_Banner::Main") ∧
    groupName stripMotd (groupName stripMotd (pystr "motd_Banner::Main")) =
      groupName stripMotd (pystr "motd_Banner::Main") :=
  ⟨by decide, groupName_transform_idem stripMotd (pystr "motd_Banner::Main") (by decide)⟩

/-- **C4, counterexample.** With `last_report` *set* to `0`, the built
`unreported` threshold is the default `2`, not the configured `0`: the
source tests Python truthiness (`cfg['last_report'] if cfg['last_report']
else DEFAULT_LAST_REPORT`), not only null-ness. -/
theorem node_query_args_zero_cex :
    (⟨pystr "prod", some 0, false, false⟩ : NodeQueryCfg).last_report = some 0 ∧
    (node_query_args ⟨pystr "prod", some 0, false, false⟩).unreported = 2 ∧
    (node_query_args ⟨pystr "prod", some 0, false, false⟩).unreported ≠ 0 :=
  ⟨rfl, rfl, by decide⟩

/-- **C4, amended.** The `unreported` threshold equals the configured
`last_report` whenever that value is set *and nonzero* (truthy), and
equals the default `2` when `last_report` is unset or set to `0`. -/
theorem node_query_args_unreported (cfg : NodeQueryCfg) :
    (∀ n : Int, cfg.last_report = some n → n ≠ 0 →
      (node_query_args cfg).unreported = n) ∧
    ((cfg.last_report = none ∨ cfg.last_report = some 0) →
      (node_query_args cfg).unreported = DEFAULT_LAST_REPORT) := by
  constructor
  · intro n hn hnz
    simp [node_query_args, lastReportTruthy, hn, hnz]
  · rintro (h | h) <;> simp [node_query_args, lastReportTruthy, h]

/-- Witness for `node_query_args_unreported` at concrete configurations. -/
theorem node_query_args_unreported_witness :
    ((⟨pystr "prod", some 5, false, false⟩ : NodeQueryCfg).last_report = some 5 ∧
      (5 : Int) ≠ 0 ∧
      (node_query_args ⟨pystr "prod", some 5, false, false⟩).unreported = 5) ∧
    (node_query_args ⟨pystr "prod", none, false, false⟩).unreported =
      DEFAULT_LAST_REPORT :=
  ⟨⟨rfl, by decide, (node_query_args_unreported _).1 5 rfl (by decide)⟩,
    (node_query_args_unreported _).2 (Or.inl rfl)⟩

/-- **C5.** `parse_config` tries `~/.puppetdb.yml` first, then
`/etc/ansible/puppetdb.yml`; it returns the parsed contents of the first
readable candidate (ignoring any later one) and an empty mapping when
neither is readable. -/
theorem parse_config_spec (readable : PyStr → Bool) (from_yaml : PyStr → PyVal)
    (home : PyStr) :
    (readable (home ++ pystr "/.puppetdb.yml") = true →
      parse_config readable from_yaml home =
        from_yaml (home ++ pystr "/.puppetdb.yml")) ∧
    (readable (home ++ pystr "/.puppetdb.yml") = false →
      readable (pystr "/etc/ansible/puppetdb.yml") = true →
      parse_config readable from_yaml home =
        from_yaml (pystr "/etc/ansible/puppetdb.yml")) ∧
    (readable (home ++ pystr "/.puppetdb.yml") = false →
      readable (pystr "/etc/ansible/puppetdb.yml") = false →
      parse_config readable from_yaml home = .pdict []) := by
  refine ⟨?_, ?_, ?_⟩
  · intro h1
    simp [parse_config, config_files, firstConfig, h1]
  · intro h1 h2
    simp [parse_config, config_files, firstConfig, h1, h2]
  · intro h1 h2
    simp [parse_config, config_files, firstConfig, h1, h2]

/-- Witness for `parse_config_spec`: no candidate is readable, so the
empty mapping comes back. -/
theorem parse_config_spec_witness :
    ((fun _ : PyStr => false) (([] : PyStr) ++ pystr "/.puppetdb.yml") = false) ∧
    ((fun _ : PyStr => false) (pystr "/etc/ansible/puppetdb.yml") = false) ∧
    parse_config (fun _ => false) (fun _ => PyVal.pnone) [] = .pdict [] :=
  ⟨rfl, rfl, (parse_config_spec (fun _ => false) (fun _ => PyVal.pnone) []).2.2 rfl rfl⟩

theorem GoodOut_initOutput (hv : Dict) :
    GoodOut [(hostvarsKey, .pdict hv)] (initOutput hv) := by
  refine ⟨by simp [initOutput, dictGet], by simp [dictGet]; decide, ?_⟩
  intro g hg
  simp [initOutput, dictGet, Ne.symm hg, hostsOf]

theorem dictGet_initOutput_ne (hv : Dict) (g : PyStr) (hg : g ≠ metaKey) :
    dictGet (initOutput hv) g = none := by
  simp [initOutput, dictGet, Ne.symm hg]

theorem buildInventory_ok_elim (strip : PyStr → PyStr) (fa : List PyStr)
    (ff : PyStr → List PyFact) (nodes : List PyStr) (rs : List PyResource)
    (v : PyVal) (h : buildInventory strip fa ff nodes rs = .ok v) :
    ∃ hv out, nodeHostvars fa ff nodes = .ok hv ∧
      rs.foldlM (addResource strip nodes) (initOutput hv) = .ok out ∧
      v = .pdict out := by
  unfold buildInventory at h
  cases hn : nodeHostvars fa ff nodes with
  | error e =>
    rw [hn] at h
    cases h
  | ok hv =>
    rw [hn, except_ok_bind] at h
    cases hf : rs.foldlM (addResource strip nodes) (initOutput hv) with
    | error e =>
      rw [hf] at h
      cases h
    | ok out =>
      rw [hf, except_ok_bind] at h
      exact ⟨hv, out, rfl, hf, (Except.ok.inj h).symm⟩

/-- What any group entry of a successfully built inventory document holds:
exactly the hosts that `selHosts` collects for it from the resource list
(there is no entry when that collection is empty). -/
theorem buildInventory_group_entry (strip : PyStr → PyStr) (fa : List PyStr)
    (ff : PyStr → List PyFact) (nodes : List PyStr) (rs : List PyResource)
    (doc : Dict) (h : buildInventory strip fa ff nodes rs = .ok (.pdict doc))
    (g : PyStr) (hg : g ≠ metaKey) :
    dictGet doc g = (extendHosts none (selHosts strip nodes g rs)).map groupVal := by
  obtain ⟨hv, out, hn, hfold, hout⟩ := buildInventory_ok_elim _ _ _ _ _ _ h
  have hdoc : out = doc := by
    cases hout
    rfl
  subst hdoc
  have hnometa : ∀ r ∈ rs, r.node ∈ nodes → groupName strip r.name ≠ metaKey := by
    intro r hr hnn hgm
    have herr := foldRes_meta_error strip nodes [(hostvarsKey, .pdict hv)] rs
      (initOutput hv) (GoodOut_initOutput hv) ⟨r, hr, hnn, hgm⟩
    rw [herr] at hfold
    cases hfold
  obtain ⟨fin, hfold2, _, hchar⟩ := foldRes_ok strip nodes [(hostvarsKey, .pdict hv)]
    rs (initOutput hv) (GoodOut_initOutput hv) hnometa
  have hfin : fin = out := by
    rw [hfold] at hfold2
    exact (Except.ok.inj hfold2).symm
  subst hfin
  have := hchar g hg
  rwa [dictGet_initOutput_ne hv g hg] at this

theorem foldRes_filter (strip : PyStr → PyStr) (nodes : List PyStr) :
    ∀ (rs : List PyResource) (out : Dict),
    rs.foldlM (addResource strip nodes) out =
      (rs.filter (fun r => decide (r.node ∈ nodes))).foldlM
        (addResource strip nodes) out := by
  intro rs
  induction rs with
  | nil => intro out; rfl
  | cons r rs ih =>
    intro out
    by_cases hn : r.node ∈ nodes
    · rw [List.filter_cons_of_pos (by simpa using hn), List.foldlM_cons,
        List.foldlM_cons]
      cases ha : addResource strip nodes out r with
      | error e => rfl
      | ok out2 => rw [except_ok_bind, except_ok_bind, ih]
    · rw [List.filter_cons_of_neg (by simpa using hn), List.foldlM_cons,
        addResource_skip strip nodes out r hn, except_ok_bind, ih]

/-- **C2.** A resource whose owning node was not returned by the node query
contributes nothing: dropping all such resources leaves the built document
unchanged, and an undiscovered node's name never occurs in any group's
hosts list. -/
theorem undiscovered_nodes_dropped (strip : PyStr → PyStr) (fa : List PyStr)
    (ff : PyStr → List PyFact) (nodes : List PyStr) (rs : List PyResource)
    (bad : PyStr) (hbad : bad ∉ nodes) :
    buildInventory strip fa ff nodes rs =
      buildInventory strip fa ff nodes
        (rs.filter (fun r => decide (r.node ∈ nodes))) ∧
    (∀ doc, buildInventory strip fa ff nodes rs = .ok (.pdict doc) →
      ∀ g, g ≠ metaKey → ∀ hs, dictGet doc g = some (groupVal hs) →
        PyVal.pstr bad ∉ hs) := by
  constructor
  · unfold buildInventory
    cases hn : nodeHostvars fa ff nodes with
    | error e => rfl
    | ok hv =>
      rw [except_ok_bind, except_ok_bind, foldRes_filter]
  · intro doc h g hg hs hget
    have hchar := buildInventory_group_entry strip fa ff nodes rs doc h g hg
    rw [hget] at hchar
    intro hmem
    cases hsel : selHosts strip nodes g rs with
    | nil =>
      rw [hsel] at hchar
      exact Option.some_ne_none _ hchar
    | cons x sel =>
      rw [hsel] at hchar
      have hhs : hs = x :: sel := by
        have h2 : some (groupVal hs) = some (groupVal (x :: sel)) := hchar
        have h3 := Option.some.inj h2
        simpa [groupVal] using h3
      rw [hhs, ← hsel] at hmem
      unfold selHosts at hmem
      obtain ⟨r, hrmem, hrx⟩ := List.mem_map.mp hmem
      have hrn : r.node = bad := PyVal.pstr.inj hrx
      have hfilt := List.of_mem_filter hrmem
      simp only [Bool.and_eq_true, decide_eq_true_eq] at hfilt
      exact hbad (hrn ▸ hfilt.1)

/-- Witness for `undiscovered_nodes_dropped`: dropping the resource of the
undiscovered node `ghost` leaves the document unchanged. -/
theorem undiscovered_nodes_dropped_witness :
    (pystr "ghost" ∉ [pystr "host1"]) ∧
    buildInventory stripMotd [] (fun _ => []) [pystr "host1"]
        [⟨pystr "host1", pystr "motd_A"⟩, ⟨pystr "ghost", pystr "motd_A"⟩] =
      buildInventory stripMotd [] (fun _ => []) [pystr "host1"]
        ([⟨pystr "host1", pystr "motd_A"⟩, ⟨pystr "ghost", pystr "motd_A"⟩].filter
          (fun r => decide (r.node ∈ [pystr "host1"]))) :=
  ⟨by decide,
    (undiscovered_nodes_dropped stripMotd [] (fun _ => []) [pystr "host1"]
      [⟨pystr "host1", pystr "motd_A"⟩, ⟨pystr "ghost", pystr "motd_A"⟩]
      (pystr "ghost") (by decide)).1⟩

/-- **C9.** No deduplication within a group: a successfully built document
maps every group name `g` other than `_meta` to the hosts collected by
`selHosts` — one occurrence of the owning node's name per resource that
selects `g`, in resource-iteration order — and has no entry at `g` when no
resource selects it. -/
theorem group_hosts_per_resource (strip : PyStr → PyStr) (fa : List PyStr)
    (ff : PyStr → List PyFact) (nodes : List PyStr) (rs : List PyResource)
    (doc : Dict) (h : buildInventory strip fa ff nodes rs = .ok (.pdict doc))
    (g : PyStr) (hg : g ≠ metaKey) :
    dictGet doc g = (extendHosts none (selHosts strip nodes g rs)).map groupVal :=
  buildInventory_group_entry strip fa ff nodes rs doc h g hg

/-- Witness for `group_hosts_per_resource`: the same resource listed twice
puts its node into the group's hosts twice. -/
theorem group_hosts_per_resource_witness :
    buildInventory stripMotd [] (fun _ => []) [pystr "host1"]
        [⟨pystr "host1", pystr "motd_A"⟩, ⟨pystr "host1", pystr "motd_A"⟩] =
      .ok (.pdict [(metaKey, .pdict [(hostvarsKey, .pdict [])]),
        (pystr "a", groupVal [.pstr (pystr "host1"), .pstr (pystr "host1")])]) ∧
    (pystr "a" ≠ metaKey) ∧
    dictGet [(metaKey, .pdict [(hostvarsKey, .pdict [])]),
        (pystr "a", groupVal [.pstr (pystr "host1"), .pstr (pystr "host1")])]
        (pystr "a") =
      (extendHosts none (selHosts stripMotd [pystr "host1"] (pystr "a")
        [⟨pystr "host1", pystr "motd_A"⟩, ⟨pystr "host1", pystr "motd_A"⟩])).map
        groupVal :=
  ⟨by rfl, by decide,
    group_hosts_per_resource stripMotd [] (fun _ => []) [pystr "host1"]
      [⟨pystr "host1", pystr "motd_A"⟩, ⟨pystr "host1", pystr "motd_A"⟩]
      [(metaKey, .pdict [(hostvarsKey, .pdict [])]),
        (pystr "a", groupVal [.pstr (pystr "host1"), .pstr (pystr "host1")])]
      (by rfl) (pystr "a") (by decide)⟩

/-- **C10.** When a resource on a discovered node normalizes to `_meta`,
no distinct group is created: the output dict already holds the `_meta`
metadata entry, so the loop takes the existing-entry branch, looks up
`'hosts'` inside the metadata dict, and the run aborts with that
key-lookup error instead of producing an inventory. -/
theorem meta_collision_key_error (strip : PyStr → PyStr) (fa : List PyStr)
    (ff : PyStr → List PyFact) (nodes : List PyStr) (rs : List PyResource)
    (hv : Dict) (hnode : nodeHostvars fa ff nodes = .ok hv)
    (hmeta : ∃ r ∈ rs, r.node ∈ nodes ∧ groupName strip r.name = metaKey) :
    buildInventory strip fa ff nodes rs = .error (.keyError hostsKey) := by
  unfold buildInventory
  rw [hnode, except_ok_bind,
    foldRes_meta_error strip nodes [(hostvarsKey, .pdict hv)] rs (initOutput hv)
      (GoodOut_initOutput hv) hmeta]
  rfl

/-- Witness for `meta_collision_key_error`: a resource titled `_meta` under
a strip function with nothing to strip. -/
theorem meta_collision_key_error_witness :
    nodeHostvars [] (fun _ => []) [pystr "host1"] = .ok [] ∧
    ((⟨pystr "host1", pystr "_meta"⟩ : PyResource).node ∈ [pystr "host1"] ∧
      groupName (fun s => s) (pystr "_meta") = metaKey) ∧
    buildInventory (fun s => s) [] (fun _ => []) [pystr "host1"]
      [⟨pystr "host1", pystr "_meta"⟩] = .error (.keyError hostsKey) :=
  ⟨rfl, ⟨by decide, by decide⟩,
    meta_collision_key_error (fun s => s) [] (fun _ => []) [pystr "host1"]
      [⟨pystr "host1", pystr "_meta"⟩] [] rfl
      ⟨⟨pystr "host1", pystr "_meta"⟩, List.mem_cons_self _ _, by decide, by decide⟩⟩

/-- **C6, counterexample.** The configuration is *not* left unmodified
outside `query.environment`: `db_connect` pops `ca_cert` out of the
`puppetdb` section, so with a `ca_cert` entry configured the section after
the run differs from the loaded one (even with no `--environment` flag). -/
theorem config_mutation_cex :
    configAfterRun
        [(pystr "puppetdb", .pdict [(pystr "ca_cert", .pstr (pystr "/ca.pem")),
            (pystr "host", .pstr (pystr "pdb.example.org"))]),
         (pystr "query", .pdict [(pystr "environment", .pstr (pystr "prod"))])]
        none =
      .ok [(pystr "puppetdb", .pdict [(pystr "host", .pstr (pystr "pdb.example.org"))]),
           (pystr "query", .pdict [(pystr "environment", .pstr (pystr "prod"))])] ∧
    dictGet [(pystr "puppetdb", .pdict [(pystr "host", .pstr (pystr "pdb.example.org"))]),
           (pystr "query", .pdict [(pystr "environment", .pstr (pystr "prod"))])]
        (pystr "puppetdb") ≠
      dictGet [(pystr "puppetdb", .pdict [(pystr "ca_cert", .pstr (pystr "/ca.pem")),
            (pystr "host", .pstr (pystr "pdb.example.org"))]),
         (pystr "query", .pdict [(pystr "environment", .pstr (pystr "prod"))])]
        (pystr "puppetdb") := by
  constructor
  · rfl
  · intro h
    have h1 : dictGet [(pystr "puppetdb",
        PyVal.pdict [(pystr "host", PyVal.pstr (pystr "pdb.example.org"))]),
        (pystr "query", PyVal.pdict [(pystr "environment", PyVal.pstr (pystr "prod"))])]
        (pystr "puppetdb") =
        some (.pdict [(pystr "host", PyVal.pstr (pystr "pdb.example.org"))]) := rfl
    have h2 : dictGet [(pystr "puppetdb",
        PyVal.pdict [(pystr "ca_cert", PyVal.pstr (pystr "/ca.pem")),
          (pystr "host", PyVal.pstr (pystr "pdb.example.org"))]),
        (pystr "query", PyVal.pdict [(pystr "environment", PyVal.pstr (pystr "prod"))])]
        (pystr "puppetdb") =
        some (.pdict [(pystr "ca_cert", PyVal.pstr (pystr "/ca.pem")),
          (pystr "host", PyVal.pstr (pystr "pdb.example.org"))]) := rfl
    rw [h1, h2] at h
    have h3 := PyVal.pdict.inj (Option.some.inj h)
    have h4 := congrArg List.length h3
    simp at h4

theorem connectStep_ok_elim (cfg1 : Dict) (out : Dict)
    (h : connectStep cfg1 = .ok out) :
    ∃ p, dictGet cfg1 (pystr "puppetdb") = some (.pdict p) ∧
      out = dictSet cfg1 (pystr "puppetdb")
        (.pdict (dictRemove p (pystr "ca_cert"))) := by
  unfold connectStep at h
  cases hpk : dictGet cfg1 (pystr "puppetdb") with
  | none => rw [hpk] at h; cases h
  | some v =>
    cases v with
    | pdict p => rw [hpk] at h; exact ⟨p, rfl, (Except.ok.inj h).symm⟩
    | pstr s => rw [hpk] at h; cases h
    | pint n => rw [hpk] at h; cases h
    | pfloat t => rw [hpk] at h; cases h
    | pbool b => rw [hpk] at h; cases h
    | pnone => rw [hpk] at h; cases h
    | plist xs => rw [hpk] at h; cases h

/-- **C6, amended.** After loading, the run changes the configuration in
exactly two places: `query.environment` is overwritten when (and only
when) the `--environment` flag is given, and `db_connect` removes the
`ca_cert` entry from the `puppetdb` section; every other top-level entry,
and every other entry of the `query` section, is unchanged. -/
theorem config_frame (cfg : Dict) (envFlag : Option PyStr) (out : Dict)
    (h : configAfterRun cfg envFlag = .ok out) :
    (∀ k, k ≠ pystr "query" → k ≠ pystr "puppetdb" →
      dictGet out k = dictGet cfg k) ∧
    (∃ p, dictGet cfg (pystr "puppetdb") = some (.pdict p) ∧
      dictGet out (pystr "puppetdb") =
        some (.pdict (dictRemove p (pystr "ca_cert")))) ∧
    (envFlag = none →
      dictGet out (pystr "query") = dictGet cfg (pystr "query")) ∧
    (∀ e, envFlag = some e →
      ∃ q, dictGet cfg (pystr "query") = some (.pdict q) ∧
        dictGet out (pystr "query") =
          some (.pdict (dictSet q (pystr "environment") (.pstr e))) ∧
        ∀ k2, k2 ≠ pystr "environment" →
          dictGet (dictSet q (pystr "environment") (.pstr e)) k2 = dictGet q k2) := by
  have hqp : pystr "query" ≠ pystr "puppetdb" := by decide
  cases envFlag with
  | none =>
    have h2 : connectStep cfg = .ok out := h
    obtain ⟨p, hpk, hout⟩ := connectStep_ok_elim cfg out h2
    subst hout
    refine ⟨?_, ⟨p, hpk, ?_⟩, ?_, ?_⟩
    · intro k hk1 hk2
      exact dictGet_dictSet_ne _ _ _ _ (fun hh => hk2 hh.symm)
    · rw [dictGet_dictSet_self]
    · intro _
      exact dictGet_dictSet_ne _ _ _ _ (Ne.symm hqp)
    · intro e he
      cases he
  | some e =>
    unfold configAfterRun at h
    cases hqk : dictGet cfg (pystr "query") with
    | none => rw [hqk] at h; cases h
    | some w =>
      cases w with
      | pdict q =>
        rw [hqk] at h
        obtain ⟨p, hpk, hout⟩ := connectStep_ok_elim _ out h
        rw [dictGet_dictSet_ne _ _ _ _ hqp] at hpk
        subst hout
        refine ⟨?_, ⟨p, hpk, ?_⟩, ?_, ?_⟩
        · intro k hk1 hk2
          rw [dictGet_dictSet_ne _ _ _ _ (fun hh => hk2 hh.symm),
            dictGet_dictSet_ne _ _ _ _ (fun hh => hk1 hh.symm)]
        · rw [dictGet_dictSet_self]
        · intro he
          cases he
        · intro e2 he2
          have he3 : e2 = e := (Option.some.inj he2).symm
          subst he3
          refine ⟨q, rfl, ?_, ?_⟩
          · rw [dictGet_dictSet_ne _ _ _ _ (Ne.symm hqp), dictGet_dictSet_self]
          · intro k2 hk2
            exact dictGet_dictSet_ne _ _ _ _ (Ne.symm hk2)
      | pstr s => rw [hqk] at h; cases h
      | pint n => rw [hqk] at h; cases h
      | pfloat t => rw [hqk] at h; cases h
      | pbool b => rw [hqk] at h; cases h
      | pnone => rw [hqk] at h; cases h
      | plist xs => rw [hqk] at h; cases h

/-- Witness for `config_frame` on a concrete configuration with a
`ca_cert` entry and an `--environment staging` override. -/
theorem config_frame_witness :
    configAfterRun
        [(pystr "puppetdb", .pdict [(pystr "ca_cert", .pstr (pystr "/ca.pem"))]),
         (pystr "query", .pdict [(pystr "environment", .pstr (pystr "prod"))])]
        (some (pystr "staging")) =
      .ok [(pystr "puppetdb", .pdict []),
           (pystr "query", .pdict [(pystr "environment", .pstr (pystr "staging"))])] ∧
    (∃ q, dictGet
        [(pystr "puppetdb", .pdict [(pystr "ca_cert", .pstr (pystr "/ca.pem"))]),
         (pystr "query", .pdict [(pystr "environment", .pstr (pystr "prod"))])]
        (pystr "query") = some (.pdict q) ∧
      dictGet [(pystr "puppetdb", .pdict []),
           (pystr "query", .pdict [(pystr "environment", .pstr (pystr "staging"))])]
        (pystr "query") =
        some (.pdict (dictSet q (pystr "environment") (.pstr (pystr "staging")))) ∧
      ∀ k2, k2 ≠ pystr "environment" →
        dictGet (dictSet q (pystr "environment") (.pstr (pystr "staging"))) k2 =
          dictGet q k2) :=
  ⟨by rfl,
    (config_frame
      [(pystr "puppetdb", .pdict [(pystr "ca_cert", .pstr (pystr "/ca.pem"))]),
       (pystr "query", .pdict [(pystr "environment", .pstr (pystr "prod"))])]
      (some (pystr "staging"))
      [(pystr "puppetdb", .pdict []),
       (pystr "query", .pdict [(pystr "environment", .pstr (pystr "staging"))])]
      (by rfl)).2.2.2 (pystr "staging") rfl⟩


theorem strLt_asymm : ∀ s t : PyStr, strLt s t = true → strLt t s = false := by
  intro s
  induction s with
  | nil =>
    intro t h
    cases t <;> simp [strLt] at h ⊢
  | cons x xs ih =>
    intro t h
    cases t with
    | nil => simp [strLt] at h
    | cons y ys =>
      simp only [strLt, Bool.or_eq_true, Bool.and_eq_true, decide_eq_true_eq,
        beq_iff_eq] at h
      rcases h with h | ⟨rfl, h⟩
      · have h1 : decide (y < x) = false := by simp; omega
        have h2 : (y == x) = false := by simp; omega
        simp [strLt, h1, h2]
      · simp [strLt, ih ys h]

theorem strLt_trans : ∀ a b c : PyStr,
    strLt a b = true → strLt b c = true → strLt a c = true := by
  intro a
  induction a with
  | nil =>
    intro b c hab hbc
    cases c with
    | nil => cases b <;> simp [strLt] at hab hbc
    | cons z zs => simp [strLt]
  | cons x xs ih =>
    intro b c hab hbc
    cases b with
    | nil => simp [strLt] at hab
    | cons y ys =>
      cases c with
      | nil => simp [strLt] at hbc
      | cons z zs =>
        simp only [strLt, Bool.or_eq_true, Bool.and_eq_true, decide_eq_true_eq,
          beq_iff_eq] at hab hbc ⊢
        rcases hab with h1 | ⟨rfl, h1⟩
        · rcases hbc with h2 | ⟨rfl, h2⟩
          · exact Or.inl (by omega)
          · exact Or.inl h1
        · rcases hbc with h2 | ⟨rfl, h2⟩
          · exact Or.inl h2
          · exact Or.inr ⟨rfl, ih ys zs h1 h2⟩

theorem strLt_conn : ∀ a b : PyStr,
    strLt a b = false → strLt b a = false → a = b := by
  intro a
  induction a with
  | nil =>
    intro b h1 _
    cases b with
    | nil => rfl
    | cons y ys => simp [strLt] at h1
  | cons x xs ih =>
    intro b h1 h2
    cases b with
    | nil => simp [strLt] at h2
    | cons y ys =>
      simp only [strLt, Bool.or_eq_false_iff, Bool.and_eq_false_iff] at h1 h2
      obtain ⟨hxy, h1r⟩ := h1
      obtain ⟨hyx, h2r⟩ := h2
      have hxey : x = y := by
        simp only [decide_eq_false_iff_not] at hxy hyx
        omega
      subst hxey
      rcases h1r with h1r | h1r
      · simp at h1r
      · rcases h2r with h2r | h2r
        · simp at h2r
        · rw [ih ys h1r h2r]

theorem sortKV_perm (kvs : Dict) : List.Perm (sortKV kvs) kvs :=
  List.perm_insertionSort keyLe kvs

theorem sortKV_sorted (kvs : Dict) : List.Sorted keyLe (sortKV kvs) := by
  haveI : IsTotal (PyStr × PyVal) keyLe :=
    ⟨by
      intro x y
      by_cases h : strLt x.1 y.1 = true
      · exact Or.inl (strLt_asymm _ _ h)
      · exact Or.inr (by simpa [keyLe] using h)⟩
  haveI : IsTrans (PyStr × PyVal) keyLe :=
    ⟨by
      intro a b c hab hbc
      unfold keyLe at *
      by_cases hca : strLt c.1 a.1 = true
      · by_cases hbc2 : strLt b.1 c.1 = true
        · have := strLt_trans _ _ _ hbc2 hca
          rw [this] at hab
          cases hab
        · have hbec : b.1 = c.1 :=
            strLt_conn _ _ (by simpa using hbc2) hbc
          rw [← hbec] at hca
          rw [hca] at hab
          cases hab
      · simpa using hca⟩
  exact List.sorted_insertionSort keyLe kvs

theorem dictGet_mem {kvs : Dict} {k : PyStr} {w : PyVal}
    (h : dictGet kvs k = some w) : (k, w) ∈ kvs := by
  induction kvs with
  | nil => cases h
  | cons kv rest ih =>
    obtain ⟨k0, v0⟩ := kv
    by_cases hk : k0 = k
    · subst hk
      rw [dictGet, if_pos rfl] at h
      exact (Option.some.inj h) ▸ List.mem_cons_self _ _
    · rw [dictGet, if_neg hk] at h
      exact List.mem_cons_of_mem _ (ih h)

theorem dictGet_perm {l1 l2 : Dict} (h : List.Perm l1 l2)
    (hnd : (l1.map Prod.fst).Nodup) (k : PyStr) :
    dictGet l1 k = dictGet l2 k := by
  induction h with
  | nil => rfl
  | cons x h2 ih =>
    obtain ⟨k0, v0⟩ := x
    simp only [List.map_cons, List.nodup_cons] at hnd
    by_cases hk : k0 = k
    · subst hk
      rw [dictGet, dictGet, if_pos rfl, if_pos rfl]
    · rw [dictGet, dictGet, if_neg hk, if_neg hk]
      exact ih hnd.2
  | swap x y l =>
    obtain ⟨k0, v0⟩ := x
    obtain ⟨k1, v1⟩ := y
    by_cases h0 : k0 = k <;> by_cases h1 : k1 = k
    · exfalso
      subst h0
      subst h1
      simp at hnd
    · simp [dictGet, h0, h1]
    · simp [dictGet, h0, h1]
    · simp [dictGet, h0, h1]
  | trans h1 h2 ih1 ih2 =>
    have hnd2 := ((h1.map Prod.fst).nodup_iff).mp hnd
    rw [ih1 hnd, ih2 hnd2]

theorem canonKVs_map_fst (kvs : Dict) :
    (canonKVs kvs).map Prod.fst = kvs.map Prod.fst := by
  induction kvs with
  | nil => rfl
  | cons kv rest ih =>
    obtain ⟨k, v⟩ := kv
    simp [canonKVs, ih]

theorem dictGet_canonKVs (kvs : Dict) (k : PyStr) :
    dictGet (canonKVs kvs) k = (dictGet kvs k).map canon := by
  induction kvs with
  | nil => rfl
  | cons kv rest ih =>
    obtain ⟨k0, v0⟩ := kv
    by_cases hk : k0 = k
    · subst hk
      rw [canonKVs, dictGet, dictGet, if_pos rfl, if_pos rfl, Option.map_some']
    · rw [canonKVs, dictGet, dictGet, if_neg hk, if_neg hk, ih]

theorem sizeOf_val_lt_of_mem {kvs : Dict} {k : PyStr} {w : PyVal}
    (h : (k, w) ∈ kvs) : sizeOf w < sizeOf (PyVal.pdict kvs) := by
  have h1 := List.sizeOf_lt_of_mem h
  have h2 : sizeOf (k, w) = 1 + sizeOf k + sizeOf w := by simp
  have h3 : sizeOf (PyVal.pdict kvs) = 1 + sizeOf kvs := by simp
  omega

theorem sizeOf_item_lt_of_mem {xs : List PyVal} {x : PyVal}
    (h : x ∈ xs) : sizeOf x < sizeOf (PyVal.plist xs) := by
  have h1 := List.sizeOf_lt_of_mem h
  have h3 : sizeOf (PyVal.plist xs) = 1 + sizeOf xs := by simp
  omega

theorem sizeOf_pyval_pos (v : PyVal) : 1 ≤ sizeOf v := by
  cases v <;> simp_arith

theorem canonList_length (xs : List PyVal) :
    (canonList xs).length = xs.length := by
  induction xs with
  | nil => rfl
  | cons x rest ih => simp [canonList, ih]

theorem zip_canonList_mem {xs : List PyVal} {p : PyVal × PyVal}
    (h : p ∈ (canonList xs).zip xs) : ∃ x, x ∈ xs ∧ p = (canon x, x) := by
  induction xs with
  | nil => cases h
  | cons x rest ih =>
    rw [canonList, List.zip_cons_cons] at h
    rcases List.mem_cons.mp h with h | h
    · exact ⟨x, List.mem_cons_self x rest, h⟩
    · obtain ⟨y, hy, hp⟩ := ih h
      exact ⟨y, List.mem_cons_of_mem x hy, hp⟩

theorem wfItems_mem {xs : List PyVal} {x : PyVal}
    (hwf : wfItems xs = true) (h : x ∈ xs) : wfVal x = true := by
  induction xs with
  | nil => cases h
  | cons y rest ih =>
    rw [wfItems, Bool.and_eq_true] at hwf
    rcases List.mem_cons.mp h with rfl | h
    · exact hwf.1
    · exact ih hwf.2 h

theorem wfMembers_mem {kvs : Dict} {k : PyStr} {w : PyVal}
    (hwf : wfMembers kvs = true) (h : (k, w) ∈ kvs) :
    scalarStr k = true ∧ wfVal w = true := by
  induction kvs with
  | nil => cases h
  | cons kv rest ih =>
    obtain ⟨k0, v0⟩ := kv
    rw [wfMembers, Bool.and_eq_true, Bool.and_eq_true] at hwf
    rcases List.mem_cons.mp h with heq | h
    · obtain ⟨hk, hv⟩ := Prod.mk.injEq .. ▸ (by exact heq : (k, w) = (k0, v0))
      subst hk
      subst hv
      exact ⟨hwf.1.1, hwf.1.2⟩
    · exact ih hwf.2 h

/-- Looking a key up in the canonicalized, key-sorted entries gives the
canonicalized value of the original lookup (keys are unique). -/
theorem dictGet_sortKV_canonKVs {kvs : Dict}
    (hnd : (kvs.map Prod.fst).Nodup) (k : PyStr) :
    dictGet (sortKV (canonKVs kvs)) k = (dictGet kvs k).map canon := by
  have hnd2 : ((canonKVs kvs).map Prod.fst).Nodup := by
    rw [canonKVs_map_fst]; exact hnd
  rw [dictGet_perm (sortKV_perm (canonKVs kvs))
      (by rw [(sortKV_perm (canonKVs kvs)).map Prod.fst |>.nodup_iff]; exact hnd2) k,
    dictGet_canonKVs]

theorem canon_equiv (v : PyVal) (hwf : wfVal v = true) : PyEquiv (canon v) v := by
  suffices H : ∀ (n : Nat) (w : PyVal), sizeOf w ≤ n → wfVal w = true →
      PyEquiv (canon w) w from H (sizeOf v) v le_rfl hwf
  intro n
  induction n with
  | zero =>
    intro w hw _
    have := sizeOf_pyval_pos w
    omega
  | succ n ihn =>
    intro w hw hwf
    cases w with
    | pstr s => exact .pstr s
    | pint m => exact .pint m
    | pfloat t => exact .pfloat t
    | pbool b => exact .pbool b
    | pnone => exact .pnone
    | plist xs =>
      rw [canon]
      refine .plist _ _ (canonList_length xs) ?_
      intro p hp
      obtain ⟨x, hx, rfl⟩ := zip_canonList_mem hp
      have hlt := sizeOf_item_lt_of_mem hx
      exact ihn x (by omega) (wfItems_mem hwf hx)
    | pdict kvs =>
      rw [wfVal, Bool.and_eq_true, decide_eq_true_eq] at hwf
      rw [canon]
      refine .pdict _ _ ?_ ?_
      · intro k
        rw [dictGet_sortKV_canonKVs hwf.1]
        cases dictGet kvs k <;> rfl
      · intro k v1 w1 h1 h2
        rw [dictGet_sortKV_canonKVs hwf.1, h2, Option.map_some'] at h1
        have hv1 : v1 = canon w1 := (Option.some.inj h1).symm
        subst hv1
        have hmem := dictGet_mem h2
        have hlt := sizeOf_val_lt_of_mem hmem
        exact ihn w1 (by omega) (wfMembers_mem hwf.2 hmem).2

theorem sorted_keysSortedLe : ∀ {l : Dict}, List.Sorted keyLe l →
    keysSortedLe (l.map Prod.fst) = true := by
  intro l
  induction l with
  | nil => intro _; rfl
  | cons x rest ih =>
    intro hs
    rw [List.sorted_cons] at hs
    cases rest with
    | nil => rfl
    | cons y rest2 =>
      have hxy : keyLe x y := hs.1 y (List.mem_cons_self y rest2)
      have htail := ih hs.2
      simp only [List.map_cons, keysSortedLe, Bool.and_eq_true, Bool.not_eq_true']
      exact ⟨hxy, by simpa using htail⟩

theorem canonList_mem {xs : List PyVal} {x : PyVal} (h : x ∈ canonList xs) :
    ∃ y, y ∈ xs ∧ x = canon y := by
  induction xs with
  | nil => cases h
  | cons y rest ih =>
    rw [canonList] at h
    rcases List.mem_cons.mp h with h | h
    · exact ⟨y, List.mem_cons_self y rest, h⟩
    · obtain ⟨z, hz, hx⟩ := ih h
      exact ⟨z, List.mem_cons_of_mem y hz, hx⟩

theorem canonKVs_mem {kvs : Dict} {kv : PyStr × PyVal} (h : kv ∈ canonKVs kvs) :
    ∃ k w, (k, w) ∈ kvs ∧ kv = (k, canon w) := by
  induction kvs with
  | nil => cases h
  | cons kv0 rest ih =>
    obtain ⟨k0, v0⟩ := kv0
    rw [canonKVs] at h
    rcases List.mem_cons.mp h with h | h
    · exact ⟨k0, v0, List.mem_cons_self _ rest, h⟩
    · obtain ⟨k, w, hw, hkv⟩ := ih h
      exact ⟨k, w, List.mem_cons_of_mem _ hw, hkv⟩

theorem sortedKeysList_of_forall {xs : List PyVal}
    (h : ∀ x ∈ xs, sortedKeysB x = true) : sortedKeysList xs = true := by
  induction xs with
  | nil => rfl
  | cons x rest ih =>
    rw [sortedKeysList, Bool.and_eq_true]
    exact ⟨h x (List.mem_cons_self x rest),
      ih (fun y hy => h y (List.mem_cons_of_mem x hy))⟩

theorem sortedKeysKVs_of_forall {kvs : Dict}
    (h : ∀ kv ∈ kvs, sortedKeysB (kv : PyStr × PyVal).2 = true) :
    sortedKeysKVs kvs = true := by
  induction kvs with
  | nil => rfl
  | cons kv rest ih =>
    rw [sortedKeysKVs, Bool.and_eq_true]
    exact ⟨h kv (List.mem_cons_self kv rest),
      ih (fun y hy => h y (List.mem_cons_of_mem kv hy))⟩

theorem wfItems_of_forall {xs : List PyVal}
    (h : ∀ x ∈ xs, wfVal x = true) : wfItems xs = true := by
  induction xs with
  | nil => rfl
  | cons x rest ih =>
    rw [wfItems, Bool.and_eq_true]
    exact ⟨h x (List.mem_cons_self x rest),
      ih (fun y hy => h y (List.mem_cons_of_mem x hy))⟩

theorem wfMembers_of_forall {kvs : Dict}
    (h : ∀ kv ∈ kvs, scalarStr (kv : PyStr × PyVal).1 = true ∧ wfVal kv.2 = true) :
    wfMembers kvs = true := by
  induction kvs with
  | nil => rfl
  | cons kv rest ih =>
    obtain ⟨k, v⟩ := kv
    rw [wfMembers, Bool.and_eq_true, Bool.and_eq_true]
    have hh := h (k, v) (List.mem_cons_self _ rest)
    exact ⟨⟨hh.1, hh.2⟩, ih (fun y hy => h y (List.mem_cons_of_mem _ hy))⟩

/-- Canonicalization sorts every object's keys. -/
theorem canon_sorted (v : PyVal) : sortedKeysB (canon v) = true := by
  suffices H : ∀ (n : Nat) (w : PyVal), sizeOf w ≤ n →
      sortedKeysB (canon w) = true from H (sizeOf v) v le_rfl
  intro n
  induction n with
  | zero =>
    intro w hw
    have := sizeOf_pyval_pos w
    omega
  | succ n ihn =>
    intro w hw
    cases w with
    | pstr s => rfl
    | pint m => rfl
    | pfloat t => rfl
    | pbool b => rfl
    | pnone => rfl
    | plist xs =>
      rw [canon, sortedKeysB]
      refine sortedKeysList_of_forall ?_
      intro x hx
      obtain ⟨y, hy, rfl⟩ := canonList_mem hx
      have hlt := sizeOf_item_lt_of_mem hy
      exact ihn y (by omega)
    | pdict kvs =>
      rw [canon, sortedKeysB, Bool.and_eq_true]
      constructor
      · exact sorted_keysSortedLe (sortKV_sorted (canonKVs kvs))
      · refine sortedKeysKVs_of_forall ?_
        intro kv hkv
        have hkv2 : kv ∈ canonKVs kvs := (sortKV_perm (canonKVs kvs)).mem_iff.mp hkv
        obtain ⟨k, w2, hw2, rfl⟩ := canonKVs_mem hkv2
        have hlt := sizeOf_val_lt_of_mem hw2
        exact ihn w2 (by omega)

/-- Canonicalization preserves round-trip well-formedness. -/
theorem wf_canon (v : PyVal) (hwf : wfVal v = true) : wfVal (canon v) = true := by
  suffices H : ∀ (n : Nat) (w : PyVal), sizeOf w ≤ n → wfVal w = true →
      wfVal (canon w) = true from H (sizeOf v) v le_rfl hwf
  intro n
  induction n with
  | zero =>
    intro w hw _
    have := sizeOf_pyval_pos w
    omega
  | succ n ihn =>
    intro w hw hwf
    cases w with
    | pstr s => exact hwf
    | pint m => rfl
    | pfloat t => exact hwf
    | pbool b => rfl
    | pnone => rfl
    | plist xs =>
      rw [canon, wfVal]
      refine wfItems_of_forall ?_
      intro x hx
      obtain ⟨y, hy, rfl⟩ := canonList_mem hx
      have hlt := sizeOf_item_lt_of_mem hy
      exact ihn y (by omega) (wfItems_mem hwf hy)
    | pdict kvs =>
      rw [wfVal, Bool.and_eq_true, decide_eq_true_eq] at hwf
      rw [canon, wfVal, Bool.and_eq_true, decide_eq_true_eq]
      constructor
      · rw [((sortKV_perm (canonKVs kvs)).map Prod.fst).nodup_iff, canonKVs_map_fst]
        exact hwf.1
      · refine wfMembers_of_forall ?_
        intro kv hkv
        have hkv2 : kv ∈ canonKVs kvs := (sortKV_perm (canonKVs kvs)).mem_iff.mp hkv
        obtain ⟨k, w2, hw2, rfl⟩ := canonKVs_mem hkv2
        have hlt := sizeOf_val_lt_of_mem hw2
        have hm := wfMembers_mem hwf.2 hw2
        exact ⟨hm.1, ihn w2 (by omega) hm.2⟩

theorem skipWs_spaces (n : Nat) (s : PyStr) :
    skipWs (spaces n ++ s) = skipWs s := by
  induction n with
  | zero => rfl
  | succ m ih =>
    rw [spaces, List.replicate_succ, List.cons_append, skipWs, if_pos (by omega)]
    exact ih

theorem skipWs_nl (s : PyStr) : skipWs (10 :: s) = skipWs s := by
  rw [skipWs, if_pos (by omega)]

theorem skipWs_sp (s : PyStr) : skipWs (32 :: s) = skipWs s := by
  rw [skipWs, if_pos (by omega)]

theorem skipWs_nonws (c : Nat) (h : ¬(c = 32 ∨ c = 9 ∨ c = 10 ∨ c = 13))
    (s : PyStr) : skipWs (c :: s) = c :: s := by
  rw [skipWs, if_neg h]

theorem hexDigVal_hexDig (d : Nat) (h : d < 16) :
    hexDigVal (hexDig d) = some d := by
  interval_cases d <;> rfl

theorem hex4Val_hex4 (n : Nat) (h : n < 65536) :
    hex4Val (hexDig (n / 4096 % 16)) (hexDig (n / 256 % 16))
      (hexDig (n / 16 % 16)) (hexDig (n % 16)) = some n := by
  have harith : (((n / 4096 % 16) * 16 + n / 256 % 16) * 16 + n / 16 % 16) * 16 +
      n % 16 = n := by omega
  rw [hex4Val, hexDigVal_hexDig _ (Nat.mod_lt _ (by omega)),
    hexDigVal_hexDig _ (Nat.mod_lt _ (by omega)),
    hexDigVal_hexDig _ (Nat.mod_lt _ (by omega)),
    hexDigVal_hexDig _ (Nat.mod_lt _ (by omega))]
  exact congrArg some harith

theorem scalarStr_cons {c : Nat} {cs : PyStr} (h : scalarStr (c :: cs) = true) :
    scalarChar c = true ∧ scalarStr cs = true := by
  rw [scalarStr, List.all_cons, Bool.and_eq_true] at h
  exact h

theorem parseU_digits (a b c d n : Nat) (hx : hex4Val a b c d = some n)
    (hn : ¬(55296 ≤ n ∧ n ≤ 56319)) (rest : PyStr) :
    parseU (a :: b :: c :: d :: rest) = mapConsStr n (parseStrBody rest) := by
  rw [parseU, hx]
  exact if_neg hn

theorem parseU_digits_hi (a b c d n : Nat) (hx : hex4Val a b c d = some n)
    (hn : 55296 ≤ n ∧ n ≤ 56319) (rest : PyStr) :
    parseU (a :: b :: c :: d :: rest) = parseLo n rest := by
  rw [parseU, hx]
  exact if_pos hn

theorem parseLo_pair (a2 b2 c2 d2 m n : Nat) (hx : hex4Val a2 b2 c2 d2 = some m)
    (hm : 56320 ≤ m ∧ m ≤ 57343) (rest2 : PyStr) :
    parseLo n (92 :: 117 :: a2 :: b2 :: c2 :: d2 :: rest2) =
      mapConsStr (65536 + (n - 55296) * 1024 + (m - 56320)) (parseStrBody rest2) := by
  rw [parseLo, hx]
  exact if_pos hm

/-- Scanning the escaped form of a scalar-valued string recovers it
exactly, leaving everything after the closing quote untouched. -/
theorem parseStrBody_escape : ∀ (s : PyStr), scalarStr s = true → ∀ (rest : PyStr),
    parseStrBody (escapeChars s ++ (34 :: rest)) = some (s, rest) := by
  intro s
  induction s with
  | nil =>
    intro _ rest
    rw [escapeChars, List.nil_append, parseStrBody, if_pos rfl]
  | cons c cs ih =>
    intro hs rest
    obtain ⟨hc, hcs⟩ := scalarStr_cons hs
    rw [scalarChar, Bool.and_eq_true, decide_eq_true_eq] at hc
    have hc2 : ¬(55296 ≤ c ∧ c ≤ 57343) := by
      rcases hc with ⟨-, hc⟩
      simp only [Bool.not_eq_true', Bool.and_eq_false_iff, decide_eq_false_iff_not] at hc
      omega
    have hcl : c < 1114112 := hc.1
    rw [escapeChars, List.append_assoc]
    by_cases h34 : c = 34
    · subst h34
      rw [show escapeChar 34 = [92, 34] from rfl]
      rw [show ([92, 34] : PyStr) ++ (escapeChars cs ++ (34 :: rest)) =
        92 :: 34 :: (escapeChars cs ++ (34 :: rest)) from rfl]
      rw [parseStrBody, if_neg (by omega), if_pos rfl, parseEsc, if_pos rfl,
        ih hcs rest, mapConsStr]
    · by_cases h92 : c = 92
      · subst h92
        rw [show escapeChar 92 = [92, 92] from rfl]
        rw [show ([92, 92] : PyStr) ++ (escapeChars cs ++ (34 :: rest)) =
          92 :: 92 :: (escapeChars cs ++ (34 :: rest)) from rfl]
        rw [parseStrBody, if_neg (by omega), if_pos rfl, parseEsc,
          if_neg (by omega), if_pos rfl, ih hcs rest, mapConsStr]
      · by_cases h8 : c = 8
        · subst h8
          rw [show escapeChar 8 = [92, 98] from rfl]
          rw [show ([92, 98] : PyStr) ++ (escapeChars cs ++ (34 :: rest)) =
            92 :: 98 :: (escapeChars cs ++ (34 :: rest)) from rfl]
          rw [parseStrBody, if_neg (by omega), if_pos rfl, parseEsc,
            ite_neg2 (by omega) (by omega), if_neg (by omega), if_pos rfl,
            ih hcs rest, mapConsStr]
        · by_cases h9 : c = 9
          · subst h9
            rw [show escapeChar 9 = [92, 116] from rfl]
            rw [show ([92, 116] : PyStr) ++ (escapeChars cs ++ (34 :: rest)) =
              92 :: 116 :: (escapeChars cs ++ (34 :: rest)) from rfl]
            rw [parseStrBody, if_neg (by omega), if_pos rfl, parseEsc,
              ite_neg2 (by omega) (by omega), ite_neg2 (by omega) (by omega), ite_neg2 (by omega) (by omega),
              if_neg (by omega), if_pos rfl, ih hcs rest, mapConsStr]
          · by_cases h10 : c = 10
            · subst h10
              rw [show escapeChar 10 = [92, 110] from rfl]
              rw [show ([92, 110] : PyStr) ++ (escapeChars cs ++ (34 :: rest)) =
                92 :: 110 :: (escapeChars cs ++ (34 :: rest)) from rfl]
              rw [parseStrBody, if_neg (by omega), if_pos rfl, parseEsc,
                ite_neg2 (by omega) (by omega), ite_neg2 (by omega) (by omega), if_neg (by omega), if_pos rfl,
                ih hcs rest, mapConsStr]
            · by_cases h12 : c = 12
              · subst h12
                rw [show escapeChar 12 = [92, 102] from rfl]
                rw [show ([92, 102] : PyStr) ++ (escapeChars cs ++ (34 :: rest)) =
                  92 :: 102 :: (escapeChars cs ++ (34 :: rest)) from rfl]
                rw [parseStrBody, if_neg (by omega), if_pos rfl, parseEsc,
                  ite_neg2 (by omega) (by omega), ite_neg2 (by omega) (by omega), if_pos rfl, ih hcs rest, mapConsStr]
              · by_cases h13 : c = 13
                · subst h13
                  rw [show escapeChar 13 = [92, 114] from rfl]
                  rw [show ([92, 114] : PyStr) ++ (escapeChars cs ++ (34 :: rest)) =
                    92 :: 114 :: (escapeChars cs ++ (34 :: rest)) from rfl]
                  rw [parseStrBody, if_neg (by omega), if_pos rfl, parseEsc,
                    ite_neg2 (by omega) (by omega), ite_neg2 (by omega) (by omega), ite_neg2 (by omega) (by omega),
                    if_pos rfl, ih hcs rest, mapConsStr]
                · by_cases hpr : 32 ≤ c ∧ c ≤ 126
                  · rw [show escapeChar c = [c] by
                      rw [escapeChar, if_neg h34, if_neg h92, if_neg h8,
                        if_neg h9, if_neg h10, if_neg h12, if_neg h13,
                        if_pos hpr]]
                    rw [show ([c] : PyStr) ++ (escapeChars cs ++ (34 :: rest)) =
                      c :: (escapeChars cs ++ (34 :: rest)) from rfl]
                    rw [parseStrBody, if_neg h34, if_neg h92, ih hcs rest,
                      mapConsStr]
                  · by_cases hbmp : c < 65536
                    · rw [show escapeChar c = 92 :: 117 :: hex4 c by
                        rw [escapeChar, if_neg h34, if_neg h92, if_neg h8,
                          if_neg h9, if_neg h10, if_neg h12, if_neg h13,
                          if_neg hpr, if_pos hbmp]]
                      rw [show (92 :: 117 :: hex4 c) ++
                          (escapeChars cs ++ (34 :: rest)) =
                        92 :: 117 :: hexDig (c / 4096 % 16) ::
                          hexDig (c / 256 % 16) :: hexDig (c / 16 % 16) ::
                          hexDig (c % 16) ::
                          (escapeChars cs ++ (34 :: rest)) from rfl]
                      rw [parseStrBody, if_neg (by omega), if_pos rfl, parseEsc]
                      rw [ite_neg2 (by omega) (by omega), ite_neg2 (by omega) (by omega), ite_neg2 (by omega) (by omega),
                        ite_neg2 (by omega) (by omega), if_pos rfl]
                      rw [parseU_digits _ _ _ _ c (hex4Val_hex4 c hbmp)
                        (by omega) _, ih hcs rest, mapConsStr]
                    · rw [show escapeChar c = 92 :: 117 ::
                          hex4 (55296 + (c - 65536) / 1024) ++
                          92 :: 117 :: hex4 (56320 + (c - 65536) % 1024) by
                        rw [escapeChar, if_neg h34, if_neg h92, if_neg h8,
                          if_neg h9, if_neg h10, if_neg h12, if_neg h13,
                          if_neg hpr, if_neg hbmp]]
                      have hdiv : (c - 65536) / 1024 ≤ 1023 := by omega
                      have hmod : (c - 65536) % 1024 ≤ 1023 :=
                        by omega
                      have hhi : 55296 + (c - 65536) / 1024 < 65536 := by omega
                      have hlo : 56320 + (c - 65536) % 1024 < 65536 := by omega
                      rw [show (92 :: 117 :: hex4 (55296 + (c - 65536) / 1024) ++
                          92 :: 117 :: hex4 (56320 + (c - 65536) % 1024)) ++
                          (escapeChars cs ++ (34 :: rest)) =
                        92 :: 117 ::
                          hexDig ((55296 + (c - 65536) / 1024) / 4096 % 16) ::
                          hexDig ((55296 + (c - 65536) / 1024) / 256 % 16) ::
                          hexDig ((55296 + (c - 65536) / 1024) / 16 % 16) ::
                          hexDig ((55296 + (c - 65536) / 1024) % 16) ::
                          92 :: 117 ::
                          hexDig ((56320 + (c - 65536) % 1024) / 4096 % 16) ::
                          hexDig ((56320 + (c - 65536) % 1024) / 256 % 16) ::
                          hexDig ((56320 + (c - 65536) % 1024) / 16 % 16) ::
                          hexDig ((56320 + (c - 65536) % 1024) % 16) ::
                          (escapeChars cs ++ (34 :: rest)) by
                        simp [hex4]]
                      rw [parseStrBody, if_neg (by omega), if_pos rfl, parseEsc]
                      rw [ite_neg2 (by omega) (by omega), ite_neg2 (by omega) (by omega), ite_neg2 (by omega) (by omega),
                        ite_neg2 (by omega) (by omega), if_pos rfl]
                      rw [parseU_digits_hi _ _ _ _ _ (hex4Val_hex4 _ hhi)
                        (by omega) _]
                      rw [parseLo_pair _ _ _ _ _ _ (hex4Val_hex4 _ hlo)
                        (by omega) _]
                      rw [ih hcs rest, mapConsStr]
                      have hcomb : 65536 + (55296 + (c - 65536) / 1024 - 55296) *
                          1024 + (56320 + (c - 65536) % 1024 - 56320) = c := by
                        have := Nat.div_add_mod (c - 65536) 1024
                        omega
                      rw [hcomb]

theorem natDecimal_digits (n : Nat) : ∀ c ∈ natDecimal n, 48 ≤ c ∧ c ≤ 57 := by
  induction n using natDecimal.induct with
  | case1 n h =>
    intro c hc
    rw [natDecimal, dif_pos h] at hc
    rcases List.mem_singleton.mp hc with rfl
    omega
  | case2 n h ih =>
    intro c hc
    rw [natDecimal, dif_neg h] at hc
    rcases List.mem_append.mp hc with hc | hc
    · exact ih c hc
    · rcases List.mem_singleton.mp hc with rfl
      have := Nat.mod_lt n (show 0 < 10 by omega)
      omega

theorem natDecimal_ne_nil (n : Nat) : natDecimal n ≠ [] := by
  induction n using natDecimal.induct with
  | case1 n h =>
    rw [natDecimal, dif_pos h]
    simp
  | case2 n h ih =>
    rw [natDecimal, dif_neg h]
    simp

theorem digitsVal_natDecimal (n : Nat) : ∀ (acc : Nat) (rest : PyStr),
    digitsVal acc (natDecimal n ++ rest) =
      digitsVal (acc * 10 ^ (natDecimal n).length + n) rest := by
  induction n using natDecimal.induct with
  | case1 n h =>
    intro acc rest
    rw [natDecimal, dif_pos h]
    rw [show ([48 + n] : PyStr) ++ rest = (48 + n) :: rest from rfl]
    rw [digitsVal, if_pos (by omega)]
    congr 1
    simp
  | case2 n h ih =>
    intro acc rest
    rw [natDecimal, dif_neg h, List.append_assoc]
    rw [show ([48 + n % 10] : PyStr) ++ rest = (48 + n % 10) :: rest from rfl]
    rw [ih acc ((48 + n % 10) :: rest)]
    rw [digitsVal, if_pos (by
      have := Nat.mod_lt n (show 0 < 10 by omega)
      omega)]
    congr 1
    have hlen : (natDecimal (n / 10) ++ [48 + n % 10]).length =
        (natDecimal (n / 10)).length + 1 := by simp
    rw [hlen, pow_succ]
    have hmod := Nat.div_add_mod n 10
    have : 48 + n % 10 - 48 = n % 10 := by omega
    rw [this]
    ring_nf
    omega

theorem digitsVal_nondigit (a : Nat) (rest : PyStr)
    (hr : ∀ c, rest.head? = some c → ¬(48 ≤ c ∧ c ≤ 57)) :
    digitsVal a rest = (a, rest) := by
  cases rest with
  | nil => rfl
  | cons c r => rw [digitsVal, if_neg (hr c rfl)]

theorem digitsSpan_digits : ∀ (ds : PyStr), (∀ c ∈ ds, 48 ≤ c ∧ c ≤ 57) →
    ∀ (rest : PyStr), (∀ c, rest.head? = some c → ¬(48 ≤ c ∧ c ≤ 57)) →
    digitsSpan (ds ++ rest) = (ds, rest) := by
  intro ds
  induction ds with
  | nil =>
    intro _ rest hr
    rw [List.nil_append]
    cases rest with
    | nil => rfl
    | cons c r => rw [digitsSpan, if_neg (hr c rfl)]
  | cons d ds2 ih =>
    intro hd rest hr
    rw [List.cons_append, digitsSpan, if_pos (hd d (List.mem_cons_self _ _)),
      ih (fun c hc => hd c (List.mem_cons_of_mem _ hc)) rest hr]

theorem digitsSpan_stop : ∀ (s ds r : PyStr), digitsSpan s = (ds, r) → r ≠ [] →
    ∀ (t : PyStr), digitsSpan (s ++ t) = (ds, r ++ t) := by
  intro s
  induction s with
  | nil =>
    intro ds r h hne t
    rw [digitsSpan, Prod.mk.injEq] at h
    exact absurd h.2.symm hne
  | cons c s2 ih =>
    intro ds r h hne t
    by_cases hc : 48 ≤ c ∧ c ≤ 57
    · rw [digitsSpan, if_pos hc, Prod.mk.injEq] at h
      obtain ⟨h1, h2⟩ := h
      rw [List.cons_append, digitsSpan, if_pos hc,
        ih (digitsSpan s2).1 r (by rw [← h2]) hne t, ← h1]
    · rw [digitsSpan, if_neg hc, Prod.mk.injEq] at h
      obtain ⟨h1, h2⟩ := h
      rw [List.cons_append, digitsSpan, if_neg hc, ← h1, ← h2, List.cons_append]

theorem digitsSpan_extend : ∀ (s ds : PyStr), digitsSpan s = (ds, []) →
    ∀ (t : PyStr), (∀ c, t.head? = some c → ¬(48 ≤ c ∧ c ≤ 57)) →
    digitsSpan (s ++ t) = (ds, t) := by
  intro s
  induction s with
  | nil =>
    intro ds h t ht
    rw [digitsSpan, Prod.mk.injEq] at h
    rw [List.nil_append, ← h.1]
    cases t with
    | nil => rfl
    | cons c r => rw [digitsSpan, if_neg (ht c rfl)]
  | cons c s2 ih =>
    intro ds h t ht
    by_cases hc : 48 ≤ c ∧ c ≤ 57
    · rw [digitsSpan, if_pos hc, Prod.mk.injEq] at h
      obtain ⟨h1, h2⟩ := h
      rw [List.cons_append, digitsSpan, if_pos hc,
        ih (digitsSpan s2).1 (by rw [← h2]) t ht, ← h1]
    · rw [digitsSpan, if_neg hc, Prod.mk.injEq] at h
      exact absurd h.2.symm (by simp)

theorem parseFrac_stop (s fs r : PyStr) (h : parseFrac s = some (fs, r))
    (hne : r ≠ []) (t : PyStr) : parseFrac (s ++ t) = some (fs, r ++ t) := by
  cases s with
  | nil => rw [parseFrac] at h; cases h
  | cons c s2 =>
    rw [parseFrac] at h
    by_cases hc : c = 46
    · rw [if_pos hc] at h
      by_cases hds : (digitsSpan s2).1 = []
      · rw [if_pos hds] at h; cases h
      · rw [if_neg hds, Option.some.injEq, Prod.mk.injEq] at h
        obtain ⟨h1, h2⟩ := h
        have hspan : digitsSpan (s2 ++ t) = ((digitsSpan s2).1, r ++ t) :=
          digitsSpan_stop s2 (digitsSpan s2).1 r (by rw [← h2]) hne t
        rw [List.cons_append, parseFrac, if_pos hc, hspan]
        show (if (digitsSpan s2).1 = [] then none
            else some (46 :: (digitsSpan s2).1, r ++ t)) = some (fs, r ++ t)
        rw [if_neg hds, ← h1]
    · rw [if_neg hc] at h; cases h

theorem parseFrac_extend (s fs : PyStr) (h : parseFrac s = some (fs, []))
    (t : PyStr) (ht : ∀ c, t.head? = some c → ¬(48 ≤ c ∧ c ≤ 57)) :
    parseFrac (s ++ t) = some (fs, t) := by
  cases s with
  | nil => rw [parseFrac] at h; cases h
  | cons c s2 =>
    rw [parseFrac] at h
    by_cases hc : c = 46
    · rw [if_pos hc] at h
      by_cases hds : (digitsSpan s2).1 = []
      · rw [if_pos hds] at h; cases h
      · rw [if_neg hds, Option.some.injEq, Prod.mk.injEq] at h
        obtain ⟨h1, h2⟩ := h
        have hspan : digitsSpan (s2 ++ t) = ((digitsSpan s2).1, t) :=
          digitsSpan_extend s2 (digitsSpan s2).1 (by rw [← h2]) t ht
        rw [List.cons_append, parseFrac, if_pos hc, hspan]
        show (if (digitsSpan s2).1 = [] then none
            else some (46 :: (digitsSpan s2).1, t)) = some (fs, t)
        rw [if_neg hds, ← h1]
    · rw [if_neg hc] at h; cases h

theorem parseExpSign_extend (e : Nat) (s es : PyStr)
    (h : parseExpSign e s = some (es, []))
    (t : PyStr) (ht : ∀ c, t.head? = some c → ¬(48 ≤ c ∧ c ≤ 57)) :
    parseExpSign e (s ++ t) = some (es, t) := by
  cases s with
  | nil => rw [parseExpSign] at h; cases h
  | cons c s2 =>
    rw [parseExpSign] at h
    by_cases hc : c = 43 ∨ c = 45
    · rw [if_pos hc] at h
      by_cases hds : (digitsSpan s2).1 = []
      · rw [if_pos hds] at h; cases h
      · rw [if_neg hds, Option.some.injEq, Prod.mk.injEq] at h
        obtain ⟨h1, h2⟩ := h
        have hspan : digitsSpan (s2 ++ t) = ((digitsSpan s2).1, t) :=
          digitsSpan_extend s2 (digitsSpan s2).1 (by rw [← h2]) t ht
        rw [List.cons_append, parseExpSign, if_pos hc, hspan]
        show (if (digitsSpan s2).1 = [] then none
            else some (e :: c :: (digitsSpan s2).1, t)) = some (es, t)
        rw [if_neg hds, ← h1]
    · rw [if_neg hc] at h
      by_cases hds : (digitsSpan (c :: s2)).1 = []
      · rw [if_pos hds] at h; cases h
      · rw [if_neg hds, Option.some.injEq, Prod.mk.injEq] at h
        obtain ⟨h1, h2⟩ := h
        have hspan : digitsSpan (c :: (s2 ++ t)) = ((digitsSpan (c :: s2)).1, t) :=
          digitsSpan_extend (c :: s2) (digitsSpan (c :: s2)).1 (by rw [← h2]) t ht
        rw [List.cons_append, parseExpSign, if_neg hc, hspan]
        show (if (digitsSpan (c :: s2)).1 = [] then none
            else some (e :: (digitsSpan (c :: s2)).1, t)) = some (es, t)
        rw [if_neg hds, ← h1]

theorem parseExp_extend (s es : PyStr) (h : parseExp s = some (es, []))
    (t : PyStr) (ht : ∀ c, t.head? = some c → ¬(48 ≤ c ∧ c ≤ 57)) :
    parseExp (s ++ t) = some (es, t) := by
  cases s with
  | nil => rw [parseExp] at h; cases h
  | cons e s2 =>
    rw [parseExp] at h
    by_cases he : e = 101 ∨ e = 69
    · rw [if_pos he] at h
      rw [List.cons_append, parseExp, if_pos he]
      exact parseExpSign_extend e s2 es h t ht
    · rw [if_neg he] at h; cases h

theorem parseExp_none (t : PyStr)
    (ht : ∀ c, t.head? = some c → ¬(c = 101 ∨ c = 69)) : parseExp t = none := by
  cases t with
  | nil => rfl
  | cons e r => rw [parseExp, if_neg (ht e rfl)]

theorem parseFracExp_none (t : PyStr)
    (ht : ∀ c, t.head? = some c → ¬(c = 46 ∨ c = 101 ∨ c = 69)) :
    parseFracExp t = none := by
  cases t with
  | nil => rfl
  | cons c r =>
    rw [parseFracExp, parseFrac, if_neg (fun hh => ht c rfl (Or.inl hh))]
    exact parseExp_none (c :: r) (fun c2 hc2 hh => ht c2 hc2 (Or.inr hh))

theorem parseFracExp_nil : parseFracExp [] = none := rfl

theorem parseFracExp_extend (s fe : PyStr) (h : parseFracExp s = some (fe, []))
    (t : PyStr)
    (ht : ∀ c, t.head? = some c → ¬(48 ≤ c ∧ c ≤ 57 ∨ c = 46 ∨ c = 101 ∨ c = 69)) :
    parseFracExp (s ++ t) = some (fe, t) := by
  have htd : ∀ c, t.head? = some c → ¬(48 ≤ c ∧ c ≤ 57) :=
    fun c hc hd => ht c hc (Or.inl hd)
  rw [parseFracExp] at h
  cases hf : parseFrac s with
  | some fr =>
    rw [hf] at h
    have hm : (match parseExp fr.2 with
        | some er => some (fr.1 ++ er.1, er.2)
        | none => some fr) = some (fe, []) := h
    cases he : parseExp fr.2 with
    | some er =>
      rw [he] at hm
      rw [Option.some.injEq, Prod.mk.injEq] at hm
      obtain ⟨h1, h2⟩ := hm
      have hfr2 : fr.2 ≠ [] := by
        intro hh
        rw [hh, parseExp] at he
        cases he
      have hf2 : parseFrac (s ++ t) = some (fr.1, fr.2 ++ t) :=
        parseFrac_stop s fr.1 fr.2 hf hfr2 t
      have he2 : parseExp (fr.2 ++ t) = some (er.1, t) := by
        apply parseExp_extend fr.2 er.1 ?_ t htd
        rw [← h2]
        exact he
      rw [parseFracExp, hf2]
      show (match parseExp (fr.2 ++ t) with
          | some er2 => some (fr.1 ++ er2.1, er2.2)
          | none => some (fr.1, fr.2 ++ t)) = some (fe, t)
      rw [he2]
      show some (fr.1 ++ er.1, t) = some (fe, t)
      rw [h1]
    | none =>
      rw [he] at hm
      rw [Option.some.injEq] at hm
      have hf2 : parseFrac (s ++ t) = some (fe, t) := by
        apply parseFrac_extend s fe ?_ t htd
        rw [← hm]
        exact hf
      rw [parseFracExp, hf2]
      show (match parseExp t with
          | some er2 => some (fe ++ er2.1, er2.2)
          | none => some (fe, t)) = some (fe, t)
      rw [parseExp_none t (fun c hc hd => ht c hc (Or.inr (Or.inr hd)))]
  | none =>
    rw [hf] at h
    obtain ⟨e, s2, rfl, he⟩ : ∃ e s2, s = e :: s2 ∧ (e = 101 ∨ e = 69) := by
      cases s with
      | nil => rw [parseExp] at h; cases h
      | cons e s2 =>
        by_cases he : e = 101 ∨ e = 69
        · exact ⟨e, s2, rfl, he⟩
        · rw [parseExp, if_neg he] at h
          cases h
    rw [parseFracExp, List.cons_append, parseFrac,
      if_neg (by rcases he with he | he <;> omega)]
    show parseExp (e :: (s2 ++ t)) = some (fe, t)
    rw [← List.cons_append]
    exact parseExp_extend (e :: s2) fe h t htd

theorem parseNumPos_span (s ds r : PyStr) (hspan : digitsSpan s = (ds, r))
    (hne : ds ≠ []) :
    parseNumPos s =
      (match parseFracExp r with
       | some fr => some (PyVal.pfloat (ds ++ fr.1), fr.2)
       | none => some (PyVal.pint ((digitsVal 0 ds).1 : Int), r)) := by
  rw [parseNumPos, hspan]
  show (if ds = [] then none
      else match parseFracExp r with
       | some fr => some (PyVal.pfloat (ds ++ fr.1), fr.2)
       | none => some (PyVal.pint ((digitsVal 0 ds).1 : Int), r)) = _
  rw [if_neg hne]

theorem parseNumTok_intDecimal (i : Int) (rest : PyStr)
    (hr : ∀ c, rest.head? = some c → ¬(48 ≤ c ∧ c ≤ 57 ∨ c = 46 ∨ c = 101 ∨ c = 69)) :
    parseNumTok (intDecimal i ++ rest) = some (.pint i, rest) := by
  have hrd : ∀ c, rest.head? = some c → ¬(48 ≤ c ∧ c ≤ 57) :=
    fun c hc hd => hr c hc (Or.inl hd)
  have hre : parseFracExp rest = none :=
    parseFracExp_none rest (fun c hc hd => hr c hc (Or.inr hd))
  have hval : (digitsVal 0 (natDecimal i.natAbs)).1 = i.natAbs := by
    have h0 := digitsVal_natDecimal i.natAbs 0 []
    rw [List.append_nil] at h0
    rw [h0, digitsVal]
    simp
  have hspan : digitsSpan (natDecimal i.natAbs ++ rest) =
      (natDecimal i.natAbs, rest) :=
    digitsSpan_digits (natDecimal i.natAbs) (natDecimal_digits _) rest hrd
  have hpos : parseNumPos (natDecimal i.natAbs ++ rest) =
      some (.pint (i.natAbs : Int), rest) := by
    rw [parseNumPos_span _ _ _ hspan (natDecimal_ne_nil _), hre]
    show some (PyVal.pint ((digitsVal 0 (natDecimal i.natAbs)).1 : Int), rest) =
      some (PyVal.pint (i.natAbs : Int), rest)
    rw [hval]
  by_cases hi : i < 0
  · rw [intDecimal, if_pos hi, List.cons_append, parseNumTok, if_pos rfl, hpos]
    show some (negNum (.pint (i.natAbs : Int)), rest) = some (.pint i, rest)
    rw [negNum]
    have hna : (-(i.natAbs : Int)) = i := by omega
    rw [hna]
  · cases heq : natDecimal i.natAbs with
    | nil => exact absurd heq (natDecimal_ne_nil _)
    | cons c t2 =>
      have hd : 48 ≤ c ∧ c ≤ 57 :=
        natDecimal_digits _ c (heq ▸ List.mem_cons_self c t2)
      rw [intDecimal, if_neg hi, heq, List.cons_append, parseNumTok,
        if_neg (by omega), ← List.cons_append, ← heq, hpos]
      have hna : ((i.natAbs : Nat) : Int) = i := by omega
      rw [hna]

theorem floatTok_elim (r : PyStr) (h : floatTok r = true) :
    parseNumTok r = some (.pfloat r, []) := by
  rw [floatTok] at h
  cases hp : parseNumTok r with
  | none =>
    rw [hp] at h
    exact absurd (h : false = true) (by simp)
  | some vr =>
    rw [hp] at h
    obtain ⟨v, rest⟩ := vr
    cases v with
    | pfloat r2 =>
      have h2 : (r2 == r && rest == []) = true := h
      rw [Bool.and_eq_true, beq_iff_eq, beq_iff_eq] at h2
      obtain ⟨hr2, hrest⟩ := h2
      subst hr2
      subst hrest
      rfl
    | pstr s => exact absurd (h : false = true) (by simp)
    | pint n => exact absurd (h : false = true) (by simp)
    | pbool b => exact absurd (h : false = true) (by simp)
    | pnone => exact absurd (h : false = true) (by simp)
    | plist xs => exact absurd (h : false = true) (by simp)
    | pdict kvs => exact absurd (h : false = true) (by simp)

theorem floatTok_head (r : PyStr) (h : floatTok r = true) :
    ∃ c t2, r = c :: t2 ∧ (c = 45 ∨ (48 ≤ c ∧ c ≤ 57)) := by
  have hp := floatTok_elim r h
  cases r with
  | nil => rw [parseNumTok] at hp; cases hp
  | cons c t2 =>
    refine ⟨c, t2, rfl, ?_⟩
    by_cases hc : c = 45
    · exact Or.inl hc
    · right
      by_contra hnd
      rw [parseNumTok, if_neg hc, parseNumPos,
        show digitsSpan (c :: t2) = ([], c :: t2) from by
          rw [digitsSpan, if_neg hnd]] at hp
      rw [if_pos rfl] at hp
      cases hp

theorem parseNumPos_extend (s : PyStr) (v : PyVal) (h : parseNumPos s = some (v, []))
    (t : PyStr)
    (ht : ∀ c, t.head? = some c → ¬(48 ≤ c ∧ c ≤ 57 ∨ c = 46 ∨ c = 101 ∨ c = 69)) :
    parseNumPos (s ++ t) = some (v, t) := by
  have htd : ∀ c, t.head? = some c → ¬(48 ≤ c ∧ c ≤ 57) :=
    fun c hc hd => ht c hc (Or.inl hd)
  rw [parseNumPos] at h
  by_cases hds : (digitsSpan s).1 = []
  · rw [if_pos hds] at h; cases h
  · rw [if_neg hds] at h
    cases hfe : parseFracExp (digitsSpan s).2 with
    | some fr =>
      rw [hfe] at h
      rw [Option.some.injEq, Prod.mk.injEq] at h
      obtain ⟨h1, h2⟩ := h
      have hrem : (digitsSpan s).2 ≠ [] := by
        intro hh
        rw [hh, parseFracExp_nil] at hfe
        cases hfe
      have hspan : digitsSpan (s ++ t) =
          ((digitsSpan s).1, (digitsSpan s).2 ++ t) :=
        digitsSpan_stop s (digitsSpan s).1 (digitsSpan s).2 rfl hrem t
      have hfe2 : parseFracExp ((digitsSpan s).2 ++ t) = some (fr.1, t) := by
        apply parseFracExp_extend _ _ ?_ t ht
        rw [← h2]
        exact hfe
      rw [parseNumPos, hspan]
      show (if (digitsSpan s).1 = [] then none
          else match parseFracExp ((digitsSpan s).2 ++ t) with
            | some fr2 => some (PyVal.pfloat ((digitsSpan s).1 ++ fr2.1), fr2.2)
            | none => some (PyVal.pint ((digitsVal 0 (digitsSpan s).1).1 : Int),
                (digitsSpan s).2 ++ t)) = some (v, t)
      rw [if_neg hds, hfe2]
      show some (PyVal.pfloat ((digitsSpan s).1 ++ fr.1), t) = some (v, t)
      rw [h1]
    | none =>
      rw [hfe] at h
      rw [Option.some.injEq, Prod.mk.injEq] at h
      obtain ⟨h1, h2⟩ := h
      have hspan : digitsSpan (s ++ t) = ((digitsSpan s).1, t) :=
        digitsSpan_extend s (digitsSpan s).1 (by rw [← h2]) t htd
      rw [parseNumPos, hspan]
      show (if (digitsSpan s).1 = [] then none
          else match parseFracExp t with
            | some fr2 => some (PyVal.pfloat ((digitsSpan s).1 ++ fr2.1), fr2.2)
            | none => some (PyVal.pint ((digitsVal 0 (digitsSpan s).1).1 : Int), t))
          = some (v, t)
      rw [if_neg hds,
        parseFracExp_none t (fun c hc hd => ht c hc (Or.inr hd))]
      show some (PyVal.pint ((digitsVal 0 (digitsSpan s).1).1 : Int), t) = some (v, t)
      rw [h1]

theorem parseNumTok_extend (r : PyStr) (v : PyVal) (h : parseNumTok r = some (v, []))
    (t : PyStr)
    (ht : ∀ c, t.head? = some c → ¬(48 ≤ c ∧ c ≤ 57 ∨ c = 46 ∨ c = 101 ∨ c = 69)) :
    parseNumTok (r ++ t) = some (v, t) := by
  cases r with
  | nil => rw [parseNumTok] at h; cases h
  | cons c r2 =>
    rw [parseNumTok] at h
    rw [List.cons_append, parseNumTok]
    by_cases hc : c = 45
    · rw [if_pos hc] at h ⊢
      cases hp : parseNumPos r2 with
      | none => rw [hp] at h; cases h
      | some vr =>
        rw [hp] at h
        have h2 : some (negNum vr.1, vr.2) = some (v, []) := h
        rw [Option.some.injEq, Prod.mk.injEq] at h2
        obtain ⟨hv, hr2⟩ := h2
        have hp2 : parseNumPos (r2 ++ t) = some (vr.1, t) := by
          apply parseNumPos_extend r2 vr.1 ?_ t ht
          rw [← hr2]
          exact hp
        rw [hp2]
        show some (negNum vr.1, t) = some (v, t)
        rw [hv]
    · rw [if_neg hc] at h ⊢
      exact parseNumPos_extend (c :: r2) v h t ht

theorem skipWs_idem (s : PyStr) : skipWs (skipWs s) = skipWs s := by
  induction s with
  | nil => rfl
  | cons c rest ih =>
    by_cases h : c = 32 ∨ c = 9 ∨ c = 10 ∨ c = 13
    · rw [skipWs, if_pos h, ih]
    · rw [skipWs, if_neg h, skipWs, if_neg h]

theorem skipWs_head_nondigit {s : PyStr} {d : Nat} {t : PyStr}
    (h : skipWs s = d :: t) (hd : ¬(48 ≤ d ∧ d ≤ 57 ∨ d = 46 ∨ d = 101 ∨ d = 69)) :
    ∀ c, s.head? = some c → ¬(48 ≤ c ∧ c ≤ 57 ∨ c = 46 ∨ c = 101 ∨ c = 69) := by
  intro c hc
  cases s with
  | nil => cases hc
  | cons c0 rest =>
    have hc0 : c0 = c := Option.some.inj hc
    subst hc0
    by_cases hws : c0 = 32 ∨ c0 = 9 ∨ c0 = 10 ∨ c0 = 13
    · omega
    · rw [skipWs, if_neg hws] at h
      have : c0 = d := (List.cons.injEq .. ▸ h : c0 = d ∧ rest = t).1
      omega

theorem parseVal_ws_eq (fuel : Nat) {s t : PyStr} (h : skipWs s = skipWs t) :
    parseVal fuel s = parseVal fuel t := by
  cases fuel with
  | zero => simp [parseVal]
  | succ f => rw [parseVal, parseVal, h]

theorem emit_head {ind : Nat} {v : PyVal} {out : PyStr}
    (hwf : wfVal v = true) (h : emitVal ind v = some out) :
    ∃ c t, out = c :: t ∧ ¬(c = 32 ∨ c = 9 ∨ c = 10 ∨ c = 13) ∧ c ≠ 93 := by
  cases v with
  | pstr s =>
    refine ⟨34, escapeChars s ++ [34], ?_, by omega, by omega⟩
    rw [emitVal] at h
    exact (Option.some.inj h).symm
  | pint n =>
    rw [emitVal] at h
    by_cases hn : n < 0
    · rw [intDecimal, if_pos hn] at h
      exact ⟨45, natDecimal n.natAbs, (Option.some.inj h).symm, by omega, by omega⟩
    · rw [intDecimal, if_neg hn] at h
      cases heq : natDecimal n.natAbs with
      | nil => exact absurd heq (natDecimal_ne_nil _)
      | cons c t =>
        have hdig : 48 ≤ c ∧ c ≤ 57 :=
          natDecimal_digits _ c (heq ▸ List.mem_cons_self c t)
        rw [heq] at h
        exact ⟨c, t, (Option.some.inj h).symm, by omega, by omega⟩
  | pfloat r =>
    rw [emitVal] at h
    have h2 := (Option.some.inj h).symm
    subst h2
    rw [wfVal] at hwf
    obtain ⟨c, t2, rfl, hc⟩ := floatTok_head _ hwf
    exact ⟨c, t2, rfl, by omega, by omega⟩
  | pbool b =>
    cases b with
    | true =>
      rw [emitVal] at h
      exact ⟨116, [114, 117, 101], (Option.some.inj h).symm, by omega, by omega⟩
    | false =>
      rw [emitVal] at h
      exact ⟨102, [97, 108, 115, 101], (Option.some.inj h).symm, by omega, by omega⟩
  | pnone =>
    rw [emitVal] at h
    exact ⟨110, [117, 108, 108], (Option.some.inj h).symm, by omega, by omega⟩
  | plist xs =>
    cases xs with
    | nil =>
      rw [emitVal] at h
      exact ⟨91, [93], (Option.some.inj h).symm, by omega, by omega⟩
    | cons x rest =>
      rw [emitVal] at h
      cases hb : emitItems (ind + 2) (x :: rest) with
      | none => rw [hb] at h; cases h
      | some body =>
        rw [hb] at h
        exact ⟨91, 10 :: (body ++ 10 :: (spaces ind ++ [93])),
          (Option.some.inj h).symm, by omega, by omega⟩
  | pdict kvs =>
    cases kvs with
    | nil =>
      rw [emitVal] at h
      exact ⟨123, [125], (Option.some.inj h).symm, by omega, by omega⟩
    | cons kv rest =>
      rw [emitVal] at h
      cases hb : emitMembers (ind + 2) (kv :: rest) with
      | none => rw [hb] at h; cases h
      | some body =>
        rw [hb] at h
        exact ⟨123, 10 :: (body ++ 10 :: (spaces ind ++ [125])),
          (Option.some.inj h).symm, by omega, by omega⟩

theorem parseMembers_emit :
    ∀ (kvs : List (PyStr × PyVal)) (ind fuel : Nat) (body closer rest : PyStr),
    kvs ≠ [] →
    (∀ kv ∈ kvs, ∀ (sv : PyStr), emitVal ind kv.2 = some sv →
      ∀ (fuel2 : Nat), needVal kv.2 ≤ fuel2 →
      ∀ (r2 : PyStr), (∀ c, r2.head? = some c → ¬(48 ≤ c ∧ c ≤ 57 ∨ c = 46 ∨ c = 101 ∨ c = 69)) →
      parseVal fuel2 (sv ++ r2) = some (kv.2, r2)) →
    (∀ kv ∈ kvs, scalarStr (kv : PyStr × PyVal).1 = true) →
    emitMembers ind kvs = some body →
    needMembers kvs ≤ fuel →
    skipWs closer = 125 :: rest →
    parseMembers fuel (skipWs (body ++ closer)) = some (kvs, rest) := by
  intro kvs
  induction kvs with
  | nil =>
    intro ind fuel body closer rest hne
    exact absurd rfl hne
  | cons kv kvs2 ih =>
    obtain ⟨k, v⟩ := kv
    intro ind fuel body closer rest _ hIH hkeys hbody hfuel hclose
    rw [needMembers] at hfuel
    obtain ⟨f, rfl⟩ : ∃ f, fuel = f + 1 := by
      cases fuel with
      | zero => exfalso; omega
      | succ f => exact ⟨f, rfl⟩
    have hclosehead : ∀ c, closer.head? = some c → ¬(48 ≤ c ∧ c ≤ 57 ∨ c = 46 ∨ c = 101 ∨ c = 69) :=
      skipWs_head_nondigit hclose (by omega)
    have hk : scalarStr k = true := hkeys (k, v) (List.mem_cons_self _ _)
    have hvIH := hIH (k, v) (List.mem_cons_self _ _)
    cases kvs2 with
    | nil =>
      cases hsv : emitVal ind v with
      | none =>
        rw [show emitMembers ind [(k, v)] =
            (match emitVal ind v with
             | some sv => some (spaces ind ++ quoteJson k ++ 58 :: 32 :: sv)
             | none => none) from rfl, hsv] at hbody
        cases hbody
      | some sv =>
        rw [show emitMembers ind [(k, v)] =
            (match emitVal ind v with
             | some sv => some (spaces ind ++ quoteJson k ++ 58 :: 32 :: sv)
             | none => none) from rfl, hsv] at hbody
        have hbody2 := (Option.some.inj hbody).symm
        subst hbody2
        have hnorm : (spaces ind ++ quoteJson k ++ 58 :: 32 :: sv) ++ closer =
            spaces ind ++
              (34 :: (escapeChars k ++ (34 :: (58 :: (32 :: (sv ++ closer)))))) := by
          simp [quoteJson]
        rw [hnorm, skipWs_spaces, skipWs_nonws 34 (by omega), parseMembers,
          if_pos rfl, parseStrBody_escape k hk _]
        simp only [Option.some_bind]
        rw [skipWs_nonws 58 (by omega)]
        simp only [headTail, Option.some_bind, if_true]
        have hws : skipWs (32 :: (sv ++ closer)) = skipWs (sv ++ closer) :=
          skipWs_sp _
        rw [parseVal_ws_eq f hws, hvIH sv hsv f (by omega) closer hclosehead]
        simp only [Option.some_bind]
        rw [hclose]
        simp only [headTail, Option.some_bind]
        rw [if_neg (by omega)]
        simp only [if_true]
    | cons kv2 kvs3 =>
      have hunfold : emitMembers ind ((k, v) :: kv2 :: kvs3) =
          (match emitVal ind v, emitMembers ind (kv2 :: kvs3) with
           | some sv, some rest =>
             some (spaces ind ++ quoteJson k ++ 58 :: 32 :: sv ++ 44 :: 10 :: rest)
           | _, _ => none) := rfl
      cases hsv : emitVal ind v with
      | none =>
        rw [hunfold, hsv] at hbody
        cases hrest : emitMembers ind (kv2 :: kvs3) <;> rw [hrest] at hbody <;>
          cases hbody
      | some sv =>
        cases hrest : emitMembers ind (kv2 :: kvs3) with
        | none =>
          rw [hunfold, hsv, hrest] at hbody
          cases hbody
        | some restBody =>
          rw [hunfold, hsv, hrest] at hbody
          have hbody2 := (Option.some.inj hbody).symm
          subst hbody2
          have hnorm : (spaces ind ++ quoteJson k ++ 58 :: 32 :: sv ++
              44 :: 10 :: restBody) ++ closer =
            spaces ind ++ (34 :: (escapeChars k ++ (34 :: (58 :: (32 ::
              (sv ++ (44 :: (10 :: (restBody ++ closer)))))))))  := by
            simp [quoteJson]
          rw [hnorm, skipWs_spaces, skipWs_nonws 34 (by omega), parseMembers,
            if_pos rfl, parseStrBody_escape k hk _]
          simp only [Option.some_bind]
          rw [skipWs_nonws 58 (by omega)]
          simp only [headTail, Option.some_bind, if_true]
          have hws : skipWs (32 :: (sv ++ (44 :: (10 :: (restBody ++ closer))))) =
              skipWs (sv ++ (44 :: (10 :: (restBody ++ closer)))) := skipWs_sp _
          rw [parseVal_ws_eq f hws,
            hvIH sv hsv f (by omega) (44 :: (10 :: (restBody ++ closer)))
              (by intro c hc; cases hc; omega)]
          simp only [Option.some_bind]
          rw [skipWs_nonws 44 (by omega)]
          simp only [headTail, Option.some_bind, if_true]
          rw [skipWs_nl,
            ih ind f restBody closer rest (by simp)
              (fun q hq => hIH q (List.mem_cons_of_mem _ hq))
              (fun q hq => hkeys q (List.mem_cons_of_mem _ hq))
              hrest (by omega) hclose]
          simp only [Option.some_bind]

theorem parseItems_emit :
    ∀ (xs : List PyVal) (ind fuel : Nat) (body closer rest s : PyStr),
    xs ≠ [] →
    (∀ x ∈ xs, ∀ (sx : PyStr), emitVal ind x = some sx →
      ∀ (fuel2 : Nat), needVal x ≤ fuel2 →
      ∀ (r2 : PyStr), (∀ c, r2.head? = some c → ¬(48 ≤ c ∧ c ≤ 57 ∨ c = 46 ∨ c = 101 ∨ c = 69)) →
      parseVal fuel2 (sx ++ r2) = some (x, r2)) →
    emitItems ind xs = some body →
    needItems xs ≤ fuel →
    skipWs closer = 93 :: rest →
    skipWs s = skipWs (body ++ closer) →
    parseItems fuel s = some (xs, rest) := by
  intro xs
  induction xs with
  | nil =>
    intro ind fuel body closer rest s hne
    exact absurd rfl hne
  | cons x xs2 ih =>
    intro ind fuel body closer rest s _ hIH hbody hfuel hclose hs
    rw [needItems] at hfuel
    obtain ⟨f, rfl⟩ : ∃ f, fuel = f + 1 := by
      cases fuel with
      | zero => exfalso; omega
      | succ f => exact ⟨f, rfl⟩
    have hclosehead : ∀ c, closer.head? = some c → ¬(48 ≤ c ∧ c ≤ 57 ∨ c = 46 ∨ c = 101 ∨ c = 69) :=
      skipWs_head_nondigit hclose (by omega)
    have hvIH := hIH x (List.mem_cons_self _ _)
    cases xs2 with
    | nil =>
      cases hsx : emitVal ind x with
      | none =>
        rw [show emitItems ind [x] =
            (match emitVal ind x with
             | some sx => some (spaces ind ++ sx)
             | none => none) from rfl, hsx] at hbody
        cases hbody
      | some sx =>
        rw [show emitItems ind [x] =
            (match emitVal ind x with
             | some sx => some (spaces ind ++ sx)
             | none => none) from rfl, hsx] at hbody
        have hbody2 := (Option.some.inj hbody).symm
        subst hbody2
        rw [parseItems]
        have hv : parseVal f s = some (x, closer) := by
          rw [parseVal_ws_eq f (show skipWs s = skipWs (sx ++ closer) by
            rw [hs, List.append_assoc, skipWs_spaces])]
          exact hvIH sx hsx f (by omega) closer hclosehead
        rw [hv]
        simp only [Option.some_bind]
        rw [hclose]
        simp only [headTail, Option.some_bind]
        rw [if_neg (by omega)]
        simp only [if_true]
    | cons x2 xs3 =>
      have hunfold : emitItems ind (x :: x2 :: xs3) =
          (match emitVal ind x, emitItems ind (x2 :: xs3) with
           | some sx, some rest => some (spaces ind ++ sx ++ 44 :: 10 :: rest)
           | _, _ => none) := rfl
      cases hsx : emitVal ind x with
      | none =>
        rw [hunfold, hsx] at hbody
        cases hrest : emitItems ind (x2 :: xs3) <;> rw [hrest] at hbody <;>
          cases hbody
      | some sx =>
        cases hrest : emitItems ind (x2 :: xs3) with
        | none =>
          rw [hunfold, hsx, hrest] at hbody
          cases hbody
        | some restBody =>
          rw [hunfold, hsx, hrest] at hbody
          have hbody2 := (Option.some.inj hbody).symm
          subst hbody2
          rw [parseItems]
          have hv : parseVal f s = some (x, 44 :: (10 :: (restBody ++ closer))) := by
            rw [parseVal_ws_eq f (show skipWs s =
                skipWs (sx ++ (44 :: (10 :: (restBody ++ closer)))) by
              rw [hs]
              have : (spaces ind ++ sx ++ 44 :: 10 :: restBody) ++ closer =
                  spaces ind ++ (sx ++ (44 :: (10 :: (restBody ++ closer)))) := by
                simp
              rw [this, skipWs_spaces])]
            exact hvIH sx hsx f (by omega) _ (by intro c hc; cases hc; omega)
          rw [hv]
          simp only [Option.some_bind]
          rw [skipWs_nonws 44 (by omega)]
          simp only [headTail, Option.some_bind, if_true]
          rw [ih ind f restBody closer rest (skipWs (10 :: (restBody ++ closer)))
            (by simp)
            (fun q hq => hIH q (List.mem_cons_of_mem _ hq))
            hrest (by omega) hclose
            (by rw [skipWs_idem, skipWs_nl])]
          simp only [Option.some_bind]

theorem needVal_pos (v : PyVal) : 1 ≤ needVal v := by
  cases v <;> simp [needVal]

/-- After an array body and anything following it, whitespace skipping
stops at the first item's leading character, which is not `]`. -/
theorem emitItems_head {ind : Nat} {x : PyVal} {xs : List PyVal} {body : PyStr}
    (hwf : wfItems (x :: xs) = true)
    (h : emitItems ind (x :: xs) = some body) (z : PyStr) :
    ∃ c0 t0, skipWs (body ++ z) = c0 :: t0 ∧
      ¬(c0 = 32 ∨ c0 = 9 ∨ c0 = 10 ∨ c0 = 13) ∧ c0 ≠ 93 := by
  cases xs with
  | nil =>
    cases hsx : emitVal ind x with
    | none =>
      rw [show emitItems ind [x] =
          (match emitVal ind x with
           | some sx => some (spaces ind ++ sx)
           | none => none) from rfl, hsx] at h
      cases h
    | some sx =>
      rw [show emitItems ind [x] =
          (match emitVal ind x with
           | some sx => some (spaces ind ++ sx)
           | none => none) from rfl, hsx] at h
      have h2 := (Option.some.inj h).symm
      subst h2
      obtain ⟨c0, t', hsx2, hnws, h93⟩ :=
        emit_head (wfItems_mem hwf (List.mem_cons_self _ _)) hsx
      subst hsx2
      refine ⟨c0, t' ++ z, ?_, hnws, h93⟩
      rw [show (spaces ind ++ (c0 :: t')) ++ z = spaces ind ++ (c0 :: (t' ++ z))
          by simp, skipWs_spaces, skipWs_nonws c0 hnws]
  | cons x2 xs3 =>
    have hunfold : emitItems ind (x :: x2 :: xs3) =
        (match emitVal ind x, emitItems ind (x2 :: xs3) with
         | some sx, some rest => some (spaces ind ++ sx ++ 44 :: 10 :: rest)
         | _, _ => none) := rfl
    cases hsx : emitVal ind x with
    | none =>
      rw [hunfold, hsx] at h
      cases hrest : emitItems ind (x2 :: xs3) <;> rw [hrest] at h <;> cases h
    | some sx =>
      cases hrest : emitItems ind (x2 :: xs3) with
      | none => rw [hunfold, hsx, hrest] at h; cases h
      | some restBody =>
        rw [hunfold, hsx, hrest] at h
        have h2 := (Option.some.inj h).symm
        subst h2
        obtain ⟨c0, t', hsx2, hnws, h93⟩ :=
          emit_head (wfItems_mem hwf (List.mem_cons_self _ _)) hsx
        subst hsx2
        refine ⟨c0, t' ++ (44 :: 10 :: (restBody ++ z)), ?_, hnws, h93⟩
        rw [show (spaces ind ++ (c0 :: t') ++ 44 :: 10 :: restBody) ++ z =
            spaces ind ++ (c0 :: (t' ++ (44 :: 10 :: (restBody ++ z)))) by simp,
          skipWs_spaces, skipWs_nonws c0 hnws]

/-- After an object body and anything following it, whitespace skipping
stops at the opening quote of the first key. -/
theorem emitMembers_head {ind : Nat} {kv : PyStr × PyVal} {kvs : Dict}
    {body : PyStr} (h : emitMembers ind (kv :: kvs) = some body) (z : PyStr) :
    ∃ t0, skipWs (body ++ z) = 34 :: t0 := by
  obtain ⟨k, v⟩ := kv
  cases kvs with
  | nil =>
    cases hsv : emitVal ind v with
    | none =>
      rw [show emitMembers ind [(k, v)] =
          (match emitVal ind v with
           | some sv => some (spaces ind ++ quoteJson k ++ 58 :: 32 :: sv)
           | none => none) from rfl, hsv] at h
      cases h
    | some sv =>
      rw [show emitMembers ind [(k, v)] =
          (match emitVal ind v with
           | some sv => some (spaces ind ++ quoteJson k ++ 58 :: 32 :: sv)
           | none => none) from rfl, hsv] at h
      have h2 := (Option.some.inj h).symm
      subst h2
      refine ⟨escapeChars k ++ (34 :: (58 :: 32 :: (sv ++ z))), ?_⟩
      rw [show (spaces ind ++ quoteJson k ++ 58 :: 32 :: sv) ++ z =
          spaces ind ++ (34 :: (escapeChars k ++ (34 :: (58 :: 32 :: (sv ++ z)))))
          by simp [quoteJson], skipWs_spaces, skipWs_nonws 34 (by omega)]
  | cons kv2 kvs3 =>
    have hunfold : emitMembers ind ((k, v) :: kv2 :: kvs3) =
        (match emitVal ind v, emitMembers ind (kv2 :: kvs3) with
         | some sv, some rest =>
           some (spaces ind ++ quoteJson k ++ 58 :: 32 :: sv ++ 44 :: 10 :: rest)
         | _, _ => none) := rfl
    cases hsv : emitVal ind v with
    | none =>
      rw [hunfold, hsv] at h
      cases hrest : emitMembers ind (kv2 :: kvs3) <;> rw [hrest] at h <;> cases h
    | some sv =>
      cases hrest : emitMembers ind (kv2 :: kvs3) with
      | none => rw [hunfold, hsv, hrest] at h; cases h
      | some restBody =>
        rw [hunfold, hsv, hrest] at h
        have h2 := (Option.some.inj h).symm
        subst h2
        refine ⟨escapeChars k ++
          (34 :: (58 :: 32 :: (sv ++ (44 :: 10 :: (restBody ++ z))))), ?_⟩
        rw [show (spaces ind ++ quoteJson k ++ 58 :: 32 :: sv ++ 44 :: 10 :: restBody)
            ++ z = spaces ind ++ (34 :: (escapeChars k ++
              (34 :: (58 :: 32 :: (sv ++ (44 :: 10 :: (restBody ++ z)))))))
            by simp [quoteJson], skipWs_spaces, skipWs_nonws 34 (by omega)]

/-- The scanner reads back exactly what the emitter wrote: parsing the
emission of a well-formed value (with enough fuel, followed by anything
that does not extend a number token) returns that value and the follower. -/
theorem parseVal_emit :
    ∀ (v : PyVal) (ind fuel : Nat) (out rest : PyStr),
    wfVal v = true →
    emitVal ind v = some out →
    needVal v ≤ fuel →
    (∀ c, rest.head? = some c → ¬(48 ≤ c ∧ c ≤ 57 ∨ c = 46 ∨ c = 101 ∨ c = 69)) →
    parseVal fuel (out ++ rest) = some (v, rest) := by
  suffices H : ∀ (n : Nat) (v : PyVal), sizeOf v ≤ n →
      ∀ (ind fuel : Nat) (out rest : PyStr),
      wfVal v = true → emitVal ind v = some out → needVal v ≤ fuel →
      (∀ c, rest.head? = some c → ¬(48 ≤ c ∧ c ≤ 57 ∨ c = 46 ∨ c = 101 ∨ c = 69)) →
      parseVal fuel (out ++ rest) = some (v, rest) by
    intro v ind fuel out rest
    exact H (sizeOf v) v le_rfl ind fuel out rest
  intro n
  induction n with
  | zero =>
    intro v hv
    have := sizeOf_pyval_pos v
    omega
  | succ n ihn =>
    intro v hv ind fuel out rest hwf hemit hfuel hrest
    obtain ⟨f, rfl⟩ : ∃ f, fuel = f + 1 := by
      have := needVal_pos v
      cases fuel with
      | zero => exfalso; omega
      | succ f => exact ⟨f, rfl⟩
    rw [parseVal]
    cases v with
    | pstr s =>
      rw [emitVal] at hemit
      have h2 := (Option.some.inj hemit).symm
      subst h2
      rw [wfVal] at hwf
      rw [show quoteJson s ++ rest = 34 :: (escapeChars s ++ (34 :: rest))
          by simp [quoteJson],
        skipWs_nonws 34 (by omega), parseTok, if_pos rfl,
        parseStrBody_escape s hwf rest]
      rfl
    | pint m =>
      rw [emitVal] at hemit
      have h2 := (Option.some.inj hemit).symm
      subst h2
      by_cases hm : m < 0
      · rw [show intDecimal m ++ rest = 45 :: (natDecimal m.natAbs ++ rest)
            by rw [intDecimal, if_pos hm]; simp,
          skipWs_nonws 45 (by omega), parseTok, ite_neg2 (by omega) (by omega), ite_neg2 (by omega) (by omega),
          ite_neg2 (by omega) (by omega)]
        rw [show (45 : Nat) :: (natDecimal m.natAbs ++ rest) =
            intDecimal m ++ rest by rw [intDecimal, if_pos hm]; simp]
        exact parseNumTok_intDecimal m rest hrest
      · cases heq : natDecimal m.natAbs with
        | nil => exact absurd heq (natDecimal_ne_nil _)
        | cons c t =>
          have hdig : 48 ≤ c ∧ c ≤ 57 :=
            natDecimal_digits _ c (heq ▸ List.mem_cons_self c t)
          rw [show intDecimal m ++ rest = c :: (t ++ rest)
              by rw [intDecimal, if_neg hm, heq]; simp,
            skipWs_nonws c (by omega), parseTok, ite_neg2 (by omega) (by omega), ite_neg2 (by omega) (by omega),
            ite_neg2 (by omega) (by omega)]
          rw [show (c : Nat) :: (t ++ rest) = intDecimal m ++ rest
              by rw [intDecimal, if_neg hm, heq]; simp]
          exact parseNumTok_intDecimal m rest hrest
    | pfloat r =>
      rw [emitVal] at hemit
      have h2 := Option.some.inj hemit
      subst h2
      rw [wfVal] at hwf
      have hnum := floatTok_elim r hwf
      obtain ⟨c, t2, rfl, hc⟩ := floatTok_head r hwf
      rw [List.cons_append, skipWs_nonws c (by omega), parseTok,
        ite_neg2 (by omega) (by omega), ite_neg2 (by omega) (by omega),
        ite_neg2 (by omega) (by omega), ← List.cons_append]
      exact parseNumTok_extend (c :: t2) (.pfloat (c :: t2)) hnum rest hrest
    | pbool b =>
      cases b with
      | true =>
        rw [emitVal] at hemit
        have h2 := (Option.some.inj hemit).symm
        subst h2
        show parseTok f (skipWs (116 :: 114 :: 117 :: 101 :: rest)) = _
        rw [skipWs_nonws 116 (by omega), parseTok, ite_neg2 (by omega) (by omega), if_neg (by omega), if_pos rfl]
        rfl
      | false =>
        rw [emitVal] at hemit
        have h2 := (Option.some.inj hemit).symm
        subst h2
        show parseTok f (skipWs (102 :: 97 :: 108 :: 115 :: 101 :: rest)) = _
        rw [skipWs_nonws 102 (by omega), parseTok, ite_neg2 (by omega) (by omega), ite_neg2 (by omega) (by omega), if_pos rfl]
        rfl
    | pnone =>
      rw [emitVal] at hemit
      have h2 := (Option.some.inj hemit).symm
      subst h2
      show parseTok f (skipWs (110 :: 117 :: 108 :: 108 :: rest)) = _
      rw [skipWs_nonws 110 (by omega), parseTok, ite_neg2 (by omega) (by omega), ite_neg2 (by omega) (by omega),
        if_neg (by omega), if_pos rfl]
      rfl
    | plist xs =>
      cases xs with
      | nil =>
        rw [emitVal] at hemit
        have h2 := (Option.some.inj hemit).symm
        subst h2
        show parseTok f (skipWs (91 :: 93 :: rest)) = _
        rw [skipWs_nonws 91 (by omega), parseTok, ite_neg2 (by omega) (by omega), if_pos rfl, skipWs_nonws 93 (by omega)]
        simp [headTail]
      | cons x xs2 =>
        rw [emitVal] at hemit
        cases hb : emitItems (ind + 2) (x :: xs2) with
        | none => rw [hb] at hemit; cases hemit
        | some body =>
          rw [hb] at hemit
          have h2 := (Option.some.inj hemit).symm
          subst h2
          rw [wfVal] at hwf
          rw [show (91 :: 10 :: (body ++ 10 :: (spaces ind ++ [93]))) ++ rest =
              91 :: 10 :: (body ++ (10 :: (spaces ind ++ (93 :: rest))))
              by simp,
            skipWs_nonws 91 (by omega), parseTok, ite_neg2 (by omega) (by omega), if_pos rfl, skipWs_nl]
          obtain ⟨c0, t0, hu, hnws, h93⟩ :=
            emitItems_head hwf hb (10 :: (spaces ind ++ (93 :: rest)))
          rw [hu]
          simp only [headTail, Option.some_bind]
          rw [if_neg h93]
          have hitems : parseItems f (c0 :: t0) = some (x :: xs2, rest) := by
            refine parseItems_emit (x :: xs2) (ind + 2) f body
              (10 :: (spaces ind ++ (93 :: rest))) rest (c0 :: t0)
              (by simp) ?_ hb ?_ ?_ ?_
            · intro q hq sq hsq fuel2 hf2 r2 hr2
              refine ihn q ?_ (ind + 2) fuel2 sq r2
                (wfItems_mem hwf hq) hsq hf2 hr2
              have := sizeOf_item_lt_of_mem hq
              omega
            · rw [needVal] at hfuel; omega
            · rw [skipWs_nl, skipWs_spaces]
              exact skipWs_nonws 93 (by omega) rest
            · rw [← hu, skipWs_idem]
          rw [hitems]
          simp only [Option.some_bind]
    | pdict kvs =>
      cases kvs with
      | nil =>
        rw [emitVal] at hemit
        have h2 := (Option.some.inj hemit).symm
        subst h2
        show parseTok f (skipWs (123 :: 125 :: rest)) = _
        rw [skipWs_nonws 123 (by omega), parseTok, if_neg (by omega),
          if_pos rfl, skipWs_nonws 125 (by omega)]
        simp [headTail]
      | cons kv kvs2 =>
        rw [emitVal] at hemit
        cases hb : emitMembers (ind + 2) (kv :: kvs2) with
        | none => rw [hb] at hemit; cases hemit
        | some body =>
          rw [hb] at hemit
          have h2 := (Option.some.inj hemit).symm
          subst h2
          rw [wfVal, Bool.and_eq_true] at hwf
          rw [show (123 :: 10 :: (body ++ 10 :: (spaces ind ++ [125]))) ++ rest =
              123 :: 10 :: (body ++ (10 :: (spaces ind ++ (125 :: rest))))
              by simp,
            skipWs_nonws 123 (by omega), parseTok, if_neg (by omega),
            if_pos rfl, skipWs_nl]
          obtain ⟨t0, hu⟩ :=
            emitMembers_head hb (10 :: (spaces ind ++ (125 :: rest)))
          rw [hu]
          simp only [headTail, Option.some_bind]
          rw [if_neg (by omega)]
          rw [show (34 : Nat) :: t0 =
              skipWs (body ++ (10 :: (spaces ind ++ (125 :: rest)))) from hu.symm]
          have hmembers : parseMembers f
              (skipWs (body ++ (10 :: (spaces ind ++ (125 :: rest))))) =
              some (kv :: kvs2, rest) := by
            refine parseMembers_emit (kv :: kvs2) (ind + 2) f body
              (10 :: (spaces ind ++ (125 :: rest))) rest
              (by simp) ?_ ?_ hb ?_ ?_
            · intro q hq sq hsq fuel2 hf2 r2 hr2
              have hq2 : (q.1, q.2) ∈ kv :: kvs2 := by
                rw [Prod.mk.eta]; exact hq
              refine ihn q.2 ?_ (ind + 2) fuel2 sq r2
                (wfMembers_mem hwf.2 hq2).2 hsq hf2 hr2
              have := sizeOf_val_lt_of_mem hq2
              omega
            · intro q hq
              have hq2 : (q.1, q.2) ∈ kv :: kvs2 := by
                rw [Prod.mk.eta]; exact hq
              exact (wfMembers_mem hwf.2 hq2).1
            · rw [needVal] at hfuel; omega
            · rw [skipWs_nl, skipWs_spaces]
              exact skipWs_nonws 125 (by omega) rest
          rw [hmembers]
          simp only [Option.some_bind]

theorem needItems_le_emit :
    ∀ (xs : List PyVal) (ind : Nat) (body : PyStr), 1 ≤ ind →
    (∀ x ∈ xs, ∀ sx, emitVal ind x = some sx → needVal x ≤ sx.length) →
    emitItems ind xs = some body → needItems xs ≤ body.length := by
  intro xs
  induction xs with
  | nil =>
    intro ind body _ _ hb
    have h2 := (Option.some.inj hb).symm
    subst h2
    simp [needItems]
  | cons x xs2 ih =>
    intro ind body hind hIH hb
    cases xs2 with
    | nil =>
      cases hsx : emitVal ind x with
      | none =>
        rw [show emitItems ind [x] =
            (match emitVal ind x with
             | some sx => some (spaces ind ++ sx)
             | none => none) from rfl, hsx] at hb
        cases hb
      | some sx =>
        rw [show emitItems ind [x] =
            (match emitVal ind x with
             | some sx => some (spaces ind ++ sx)
             | none => none) from rfl, hsx] at hb
        have h2 := (Option.some.inj hb).symm
        subst h2
        have h1 := hIH x (List.mem_cons_self _ _) sx hsx
        simp only [needItems, List.length_append, spaces, List.length_replicate]
        omega
    | cons x2 xs3 =>
      have hunfold : emitItems ind (x :: x2 :: xs3) =
          (match emitVal ind x, emitItems ind (x2 :: xs3) with
           | some sx, some rest => some (spaces ind ++ sx ++ 44 :: 10 :: rest)
           | _, _ => none) := rfl
      cases hsx : emitVal ind x with
      | none =>
        rw [hunfold, hsx] at hb
        cases hrest : emitItems ind (x2 :: xs3) <;> rw [hrest] at hb <;> cases hb
      | some sx =>
        cases hrest : emitItems ind (x2 :: xs3) with
        | none => rw [hunfold, hsx, hrest] at hb; cases hb
        | some restB =>
          rw [hunfold, hsx, hrest] at hb
          have h2 := (Option.some.inj hb).symm
          subst h2
          have h1 := hIH x (List.mem_cons_self _ _) sx hsx
          have h3 := ih ind restB hind
            (fun q hq => hIH q (List.mem_cons_of_mem _ hq)) hrest
          rw [needItems]
          simp only [List.length_append, List.length_cons, spaces,
            List.length_replicate]
          omega

theorem needMembers_le_emit :
    ∀ (kvs : Dict) (ind : Nat) (body : PyStr), 1 ≤ ind →
    (∀ kv ∈ kvs, ∀ sv, emitVal ind (kv : PyStr × PyVal).2 = some sv →
      needVal (kv : PyStr × PyVal).2 ≤ sv.length) →
    emitMembers ind kvs = some body → needMembers kvs ≤ body.length := by
  intro kvs
  induction kvs with
  | nil =>
    intro ind body _ _ hb
    have h2 := (Option.some.inj hb).symm
    subst h2
    simp [needMembers]
  | cons kv kvs2 ih =>
    obtain ⟨k, v⟩ := kv
    intro ind body hind hIH hb
    cases kvs2 with
    | nil =>
      cases hsv : emitVal ind v with
      | none =>
        rw [show emitMembers ind [(k, v)] =
            (match emitVal ind v with
             | some sv => some (spaces ind ++ quoteJson k ++ 58 :: 32 :: sv)
             | none => none) from rfl, hsv] at hb
        cases hb
      | some sv =>
        rw [show emitMembers ind [(k, v)] =
            (match emitVal ind v with
             | some sv => some (spaces ind ++ quoteJson k ++ 58 :: 32 :: sv)
             | none => none) from rfl, hsv] at hb
        have h2 := (Option.some.inj hb).symm
        subst h2
        have h1 : needVal v ≤ sv.length := hIH (k, v) (List.mem_cons_self _ _) sv hsv
        simp only [needMembers, List.length_append, List.length_cons, spaces,
          List.length_replicate]
        omega
    | cons kv2 kvs3 =>
      have hunfold : emitMembers ind ((k, v) :: kv2 :: kvs3) =
          (match emitVal ind v, emitMembers ind (kv2 :: kvs3) with
           | some sv, some rest =>
             some (spaces ind ++ quoteJson k ++ 58 :: 32 :: sv ++ 44 :: 10 :: rest)
           | _, _ => none) := rfl
      cases hsv : emitVal ind v with
      | none =>
        rw [hunfold, hsv] at hb
        cases hrest : emitMembers ind (kv2 :: kvs3) <;> rw [hrest] at hb <;> cases hb
      | some sv =>
        cases hrest : emitMembers ind (kv2 :: kvs3) with
        | none => rw [hunfold, hsv, hrest] at hb; cases hb
        | some restB =>
          rw [hunfold, hsv, hrest] at hb
          have h2 := (Option.some.inj hb).symm
          subst h2
          have h1 : needVal v ≤ sv.length := hIH (k, v) (List.mem_cons_self _ _) sv hsv
          have h3 := ih ind restB hind
            (fun q hq => hIH q (List.mem_cons_of_mem _ hq)) hrest
          rw [needMembers]
          simp only [List.length_append, List.length_cons, spaces,
            List.length_replicate]
          omega

/-- The fuel a value needs is at most the length of its emission, so
`json_loads`'s fuel supply (input length + 1) always suffices. -/
theorem needVal_le_emit :
    ∀ (v : PyVal) (ind : Nat) (out : PyStr), wfVal v = true →
    emitVal ind v = some out → needVal v ≤ out.length := by
  suffices H : ∀ (n : Nat) (v : PyVal), sizeOf v ≤ n → ∀ (ind : Nat) (out : PyStr),
      wfVal v = true → emitVal ind v = some out → needVal v ≤ out.length by
    intro v
    exact H (sizeOf v) v le_rfl
  intro n
  induction n with
  | zero =>
    intro v hv
    have := sizeOf_pyval_pos v
    omega
  | succ n ihn =>
    intro v hv ind out hwf hemit
    cases v with
    | pstr s =>
      rw [emitVal] at hemit
      have h2 := (Option.some.inj hemit).symm
      subst h2
      simp [needVal, quoteJson]
    | pint m =>
      rw [emitVal] at hemit
      have h2 := (Option.some.inj hemit).symm
      subst h2
      have hne : intDecimal m ≠ [] := by
        rw [intDecimal]
        by_cases hm : m < 0
        · rw [if_pos hm]; simp
        · rw [if_neg hm]; exact natDecimal_ne_nil _
      have hpos := List.length_pos.mpr hne
      simp only [needVal]
      omega
    | pfloat r =>
      rw [emitVal] at hemit
      have h2 := Option.some.inj hemit
      subst h2
      rw [wfVal] at hwf
      obtain ⟨c, t2, rfl, hc⟩ := floatTok_head r hwf
      simp [needVal]
    | pbool b =>
      cases b <;>
        (rw [emitVal] at hemit
         have h2 := (Option.some.inj hemit).symm
         subst h2
         simp [needVal, pystr])
    | pnone =>
      rw [emitVal] at hemit
      have h2 := (Option.some.inj hemit).symm
      subst h2
      simp [needVal, pystr]
    | plist xs =>
      cases xs with
      | nil =>
        rw [emitVal] at hemit
        have h2 := (Option.some.inj hemit).symm
        subst h2
        simp [needVal, needItems, pystr]
      | cons x xs2 =>
        rw [emitVal] at hemit
        cases hb : emitItems (ind + 2) (x :: xs2) with
        | none => rw [hb] at hemit; cases hemit
        | some body =>
          rw [hb] at hemit
          have h2 := (Option.some.inj hemit).symm
          subst h2
          rw [wfVal] at hwf
          have hitems := needItems_le_emit (x :: xs2) (ind + 2) body (by omega)
            (fun q hq sq hsq => ihn q
              (by have := sizeOf_item_lt_of_mem hq; omega) (ind + 2) sq
              (wfItems_mem hwf hq) hsq) hb
          simp only [needVal, List.length_cons, List.length_append, spaces,
            List.length_replicate]
          omega
    | pdict kvs =>
      cases kvs with
      | nil =>
        rw [emitVal] at hemit
        have h2 := (Option.some.inj hemit).symm
        subst h2
        simp [needVal, needMembers, pystr]
      | cons kv kvs2 =>
        rw [emitVal] at hemit
        cases hb : emitMembers (ind + 2) (kv :: kvs2) with
        | none => rw [hb] at hemit; cases hemit
        | some body =>
          rw [hb] at hemit
          have h2 := (Option.some.inj hemit).symm
          subst h2
          rw [wfVal, Bool.and_eq_true] at hwf
          have hmem := needMembers_le_emit (kv :: kvs2) (ind + 2) body (by omega)
            (fun q hq sq hsq => ihn q.2
              (by
                have hq2 : (q.1, q.2) ∈ kv :: kvs2 := by rw [Prod.mk.eta]; exact hq
                have := sizeOf_val_lt_of_mem hq2
                omega) (ind + 2) sq
              (wfMembers_mem hwf.2
                (by rw [Prod.mk.eta]; exact hq)).2 hsq) hb
          simp only [needVal, List.length_cons, List.length_append, spaces,
            List.length_replicate]
          omega

/-- Parsing the full emission of a well-formed value gives it back. -/
theorem json_loads_emit (v : PyVal) (out : PyStr) (hwf : wfVal v = true)
    (hemit : emitVal 0 v = some out) : json_loads out = some v := by
  have h1 : parseVal (out.length + 1) (out ++ []) = some (v, []) :=
    parseVal_emit v 0 (out.length + 1) out [] hwf hemit
      (by have := needVal_le_emit v 0 out hwf hemit; omega)
      (by intro c hc; cases hc)
  rw [List.append_nil] at h1
  rw [json_loads, h1]
  rfl

theorem emitItems_total :
    ∀ (xs : List PyVal) (ind : Nat),
    (∀ x ∈ xs, ∀ (ind2 : Nat), ∃ o, emitVal ind2 x = some o) →
    ∃ body, emitItems ind xs = some body := by
  intro xs
  induction xs with
  | nil =>
    intro ind _
    exact ⟨[], rfl⟩
  | cons x xs2 ih =>
    intro ind hIH
    obtain ⟨sx, hsx⟩ := hIH x (List.mem_cons_self _ _) ind
    cases xs2 with
    | nil =>
      refine ⟨spaces ind ++ sx, ?_⟩
      rw [show emitItems ind [x] =
          (match emitVal ind x with
           | some sx => some (spaces ind ++ sx)
           | none => none) from rfl, hsx]
    | cons x2 xs3 =>
      obtain ⟨restB, hrest⟩ :=
        ih ind (fun q hq ind2 => hIH q (List.mem_cons_of_mem _ hq) ind2)
      refine ⟨spaces ind ++ sx ++ 44 :: 10 :: restB, ?_⟩
      rw [show emitItems ind (x :: x2 :: xs3) =
          (match emitVal ind x, emitItems ind (x2 :: xs3) with
           | some sx, some rest => some (spaces ind ++ sx ++ 44 :: 10 :: rest)
           | _, _ => none) from rfl, hsx, hrest]

theorem emitMembers_total :
    ∀ (kvs : Dict) (ind : Nat),
    (∀ kv ∈ kvs, ∀ (ind2 : Nat), ∃ o, emitVal ind2 (kv : PyStr × PyVal).2 = some o) →
    ∃ body, emitMembers ind kvs = some body := by
  intro kvs
  induction kvs with
  | nil =>
    intro ind _
    exact ⟨[], rfl⟩
  | cons kv kvs2 ih =>
    obtain ⟨k, v⟩ := kv
    intro ind hIH
    obtain ⟨sv, hsv⟩ := hIH (k, v) (List.mem_cons_self _ _) ind
    cases kvs2 with
    | nil =>
      refine ⟨spaces ind ++ quoteJson k ++ 58 :: 32 :: sv, ?_⟩
      rw [show emitMembers ind [(k, v)] =
          (match emitVal ind v with
           | some sv => some (spaces ind ++ quoteJson k ++ 58 :: 32 :: sv)
           | none => none) from rfl, hsv]
    | cons kv2 kvs3 =>
      obtain ⟨restB, hrest⟩ :=
        ih ind (fun q hq ind2 => hIH q (List.mem_cons_of_mem _ hq) ind2)
      refine ⟨spaces ind ++ quoteJson k ++ 58 :: 32 :: sv ++ 44 :: 10 :: restB, ?_⟩
      rw [show emitMembers ind ((k, v) :: kv2 :: kvs3) =
          (match emitVal ind v, emitMembers ind (kv2 :: kvs3) with
           | some sv, some rest =>
             some (spaces ind ++ quoteJson k ++ 58 :: 32 :: sv ++ 44 :: 10 :: rest)
           | _, _ => none) from rfl, hsv, hrest]

/-- The serializer is total: `json.dumps` writes every value this data
model holds (floats included). -/
theorem emitVal_total (v : PyVal) : ∀ (ind : Nat), ∃ out, emitVal ind v = some out := by
  suffices H : ∀ (n : Nat) (w : PyVal), sizeOf w ≤ n →
      ∀ (ind : Nat), ∃ out, emitVal ind w = some out from
    fun ind => H (sizeOf v) v le_rfl ind
  intro n
  induction n with
  | zero =>
    intro w hw
    have := sizeOf_pyval_pos w
    omega
  | succ n ihn =>
    intro w hw ind
    cases w with
    | pstr s => exact ⟨_, rfl⟩
    | pint m => exact ⟨_, rfl⟩
    | pfloat r => exact ⟨_, rfl⟩
    | pbool b => cases b <;> exact ⟨_, rfl⟩
    | pnone => exact ⟨_, rfl⟩
    | plist xs =>
      cases xs with
      | nil => exact ⟨_, rfl⟩
      | cons x xs2 =>
        obtain ⟨body, hb⟩ := emitItems_total (x :: xs2) (ind + 2)
          (fun q hq ind2 => ihn q
            (by have := sizeOf_item_lt_of_mem hq; omega) ind2)
        refine ⟨91 :: 10 :: (body ++ 10 :: (spaces ind ++ [93])), ?_⟩
        rw [emitVal, hb]
    | pdict kvs =>
      cases kvs with
      | nil => exact ⟨_, rfl⟩
      | cons kv kvs2 =>
        obtain ⟨body, hb⟩ := emitMembers_total (kv :: kvs2) (ind + 2)
          (fun q hq ind2 => ihn q.2
            (by
              have hq2 : (q.1, q.2) ∈ kv :: kvs2 := by rw [Prod.mk.eta]; exact hq
              have := sizeOf_val_lt_of_mem hq2
              omega) ind2)
        refine ⟨123 :: 10 :: (body ++ 10 :: (spaces ind ++ [125])), ?_⟩
        rw [emitVal, hb]

/-- **C8**: `to_json` serializes every well-formed inventory document
(strings of Unicode scalar values, dicts with distinct keys, floats
carrying a finite float's decimal text — the shapes the program builds);
`json.loads` parses the output back to exactly the key-sorted canonical
form of the document, which is Python-`==` to the original document, and
every object in the serialization lists its keys in sorted order.  So
serialization is total on inventory documents, its output is valid JSON
with sorted keys, and parse-after-serialize is the identity up to Python
equality. -/
theorem to_json_round_trip (v : PyVal) (hwf : wfVal v = true) :
    ∃ out, to_json v = some out ∧ json_loads out = some (canon v) ∧
      PyEquiv (canon v) v ∧ sortedKeysB (canon v) = true := by
  obtain ⟨out, hout⟩ := emitVal_total (canon v) 0
  exact ⟨out, hout, json_loads_emit (canon v) out (wf_canon v hwf) hout,
    canon_equiv v hwf, canon_sorted v⟩

theorem to_json_round_trip_witness :
    wfVal (PyVal.pdict [(pystr "b", PyVal.pbool true),
      (pystr "a", PyVal.plist [PyVal.pnone, PyVal.pstr (pystr "x")]),
      (pystr "c", PyVal.pdict [(pystr "k", PyVal.pbool false)]),
      (pystr "d", PyVal.pfloat (pystr "2.5"))]) = true ∧
    to_json (PyVal.pdict [(pystr "b", PyVal.pbool true),
      (pystr "a", PyVal.plist [PyVal.pnone, PyVal.pstr (pystr "x")]),
      (pystr "c", PyVal.pdict [(pystr "k", PyVal.pbool false)]),
      (pystr "d", PyVal.pfloat (pystr "2.5"))]) =
      some [123, 10, 32, 32, 34, 97, 34, 58, 32, 91, 10, 32, 32, 32, 32, 110,
        117, 108, 108, 44, 10, 32, 32, 32, 32, 34, 120, 34, 10, 32, 32,
        93, 44, 10, 32, 32, 34, 98, 34, 58, 32, 116, 114, 117, 101, 44,
        10, 32, 32, 34, 99, 34, 58, 32, 123, 10, 32, 32, 32, 32, 34, 107,
        34, 58, 32, 102, 97, 108, 115, 101, 10, 32, 32, 125, 44, 10, 32,
        32, 34, 100, 34, 58, 32, 50, 46, 53, 10, 125] ∧
    (∃ out, to_json (PyVal.pdict [(pystr "b", PyVal.pbool true),
      (pystr "a", PyVal.plist [PyVal.pnone, PyVal.pstr (pystr "x")]),
      (pystr "c", PyVal.pdict [(pystr "k", PyVal.pbool false)]),
      (pystr "d", PyVal.pfloat (pystr "2.5"))]) = some out ∧
      json_loads out =
        some (canon (PyVal.pdict [(pystr "b", PyVal.pbool true),
      (pystr "a", PyVal.plist [PyVal.pnone, PyVal.pstr (pystr "x")]),
      (pystr "c", PyVal.pdict [(pystr "k", PyVal.pbool false)]),
      (pystr "d", PyVal.pfloat (pystr "2.5"))])) ∧
      PyEquiv (canon (PyVal.pdict [(pystr "b", PyVal.pbool true),
      (pystr "a", PyVal.plist [PyVal.pnone, PyVal.pstr (pystr "x")]),
      (pystr "c", PyVal.pdict [(pystr "k", PyVal.pbool false)]),
      (pystr "d", PyVal.pfloat (pystr "2.5"))]))
        (PyVal.pdict [(pystr "b", PyVal.pbool true),
      (pystr "a", PyVal.plist [PyVal.pnone, PyVal.pstr (pystr "x")]),
      (pystr "c", PyVal.pdict [(pystr "k", PyVal.pbool false)]),
      (pystr "d", PyVal.pfloat (pystr "2.5"))]) ∧
      sortedKeysB (canon (PyVal.pdict [(pystr "b", PyVal.pbool true),
      (pystr "a", PyVal.plist [PyVal.pnone, PyVal.pstr (pystr "x")]),
      (pystr "c", PyVal.pdict [(pystr "k", PyVal.pbool false)]),
      (pystr "d", PyVal.pfloat (pystr "2.5"))])) = true) :=
  ⟨by decide, by decide,
    to_json_round_trip
      (PyVal.pdict [(pystr "b", PyVal.pbool true),
      (pystr "a", PyVal.plist [PyVal.pnone, PyVal.pstr (pystr "x")]),
      (pystr "c", PyVal.pdict [(pystr "k", PyVal.pbool false)]),
      (pystr "d", PyVal.pfloat (pystr "2.5"))])
      (by decide)⟩

end Pdb
